import Mathlib

/-!
Verification of the MML-Daemon core against its specification.

The embedding below models, in Lean, the Python sources of the repository:
`libmd/md.py` (wire protocol codec), `libmd/events.py` (deadline event
queue, including the list-based binary heap routines of Python's `heapq`
that it calls), `libmd/mulsoc.py` (socket multiplexer and managed socket)
and `server.py` (keep-alive monitor and client registry).  Byte strings
are modelled as `List Nat` (byte values), Python floats as `Rat`, and
object identity is modelled by an explicit `eid` field where the source
relies on it.  Functions that can raise model the exception in an
`Except`/`Option` result or an error field.
-/

set_option maxHeartbeats 1000000

set_option maxRecDepth 20000

/-! ### `libmd/md.py`: constants, charset and message packing -/

/-- Message type codes from `md.py`. -/
def MD_REG_CLIENT : Nat := 100

def MD_REGISTER_OK : Nat := 110

def MD_REGISTER_FAIL : Nat := 120

def MD_PING : Nat := 130

def MD_PONG : Nat := 140

def MD_QUIT : Nat := 150

/-- Protocol violation codes: `MDV_NO_VIOLATION, MDV_MANUAL_VIOLATION,
MDV_UNIMPLEMENTED, MDV_INVALID_MESSAGE = range(4)`. -/
def MDV_NO_VIOLATION : Nat := 0

def MDV_MANUAL_VIOLATION : Nat := 1

def MDV_UNIMPLEMENTED : Nat := 2

def MDV_INVALID_MESSAGE : Nat := 3

/-- `string.letters` (Python 2): lowercase followed by uppercase ASCII. -/
def py_letters : List Nat := (List.range 26).map (fun i => i + 97) ++ (List.range 26).map (fun i => i + 65)

/-- `string.digits`. -/
def py_digits : List Nat := (List.range 10).map (fun i => i + 48)

/-- `string.punctuation`: ASCII 33-47, 58-64, 91-96, 123-126. -/
def py_punctuation : List Nat :=
  (List.range 15).map (fun i => i + 33) ++ (List.range 7).map (fun i => i + 58) ++
  (List.range 6).map (fun i => i + 91) ++ (List.range 4).map (fun i => i + 123)

/-- `md_charset = letters + digits + punctuation + " \t\r\n"`. -/
def md_charset : List Nat := py_letters ++ py_digits ++ py_punctuation ++ [32, 9, 13, 10]

/-- `mdValidateMessage`: scans the message, returns `MDV_INVALID_MESSAGE` on the
first byte outside `md_charset`, else `MDV_NO_VIOLATION`. -/
def mdValidateMessage : List Nat → Nat
  | [] => MDV_NO_VIOLATION
  | b :: t => if b ∈ md_charset then mdValidateMessage t else MDV_INVALID_MESSAGE

/-- `mdValidateMessageHeader`: `# FIXME: Implement` - always no violation. -/
def mdValidateMessageHeader (_ty _len : Nat) : Nat := MDV_NO_VIOLATION

/-- Exceptions that `mdPackMessage` can raise: `MDPackException` with its
message text, or `struct.error` from `pack('!HH', ...)` on an out-of-range
field value. -/
inductive PackErr where
  | MDPackException (s : String)
  | structError
deriving Repr, DecidableEq

/-- Big-endian 16-bit `pack('!H', n)`. -/
def pack16 (n : Nat) : List Nat := [n / 256 % 256, n % 256]

/-- Big-endian 16-bit `unpack('!H', ...)` on two bytes. -/
def unpack16 : List Nat → Nat
  | [a, b] => a * 256 + b
  | _ => 0

/-- `mdPackMessage(type, message)`: rejects messages longer than 196 bytes or
failing charset validation with `MDPackException`; otherwise emits
`pack('!HH', len(message) + 4, type) + message` (with `struct`'s range check
on the `H` fields). -/
def mdPackMessage (ty : Nat) (message : List Nat) : Except PackErr (List Nat) :=
  if 196 < message.length then
    .error (.MDPackException "Message exceeds 196 characters.")
  else if mdValidateMessage message ≠ MDV_NO_VIOLATION then
    .error (.MDPackException "Message contains non-printable characters.")
  else if 65535 < message.length + 4 ∨ 65535 < ty then
    .error .structError
  else
    .ok (pack16 (message.length + 4) ++ pack16 ty ++ message)

/-! ### `libmd/md.py`: `ManagedMDSocket` incremental decoder -/

/-- Python runtime errors that the dispatch code can raise: looking up an
undefined global name (`NameError`) or calling a method with a wrong number
of arguments (`TypeError`), plus an uncaught `MDPackException` escaping from
a handler. -/
inductive PyErr where
  | nameError (missingGlobal : String)
  | typeError
  | packExc (e : PackErr)
deriving Repr, DecidableEq

/-- Ghost record of a protocol-handler invocation (which user handler ran and
with which arguments), used to observe dispatch behaviour. -/
inductive HandlerCall where
  | regClient (target rest : List Nat)
  | registerFail (raw : List Nat)
  | ping (raw : List Nat)
  | pong (raw : List Nat)
  | unknown (ty : Nat) (raw : List Nat)
deriving Repr, DecidableEq

/-- State of a `ManagedMDSocket` relevant to stream decoding: the fields set
in `__init__` (`recv_activity`, `stream`, `curtype`, `curlen`), the
underlying managed-socket connection state (`connected` abbreviates
`_state == CONNECTED`), plus ghost observation logs: decoded frames as
dispatched, violation reasons passed to `onProtocolViolation`, byte strings
passed to `send`, handler invocations, and a pending uncaught exception. -/
structure MDState where
  stream : List Nat
  curtype : Option Nat
  curlen : Option Nat
  connected : Bool
  recvActivity : Bool
  decoded : List (Nat × List Nat)
  violations : List Nat
  sentData : List (List Nat)
  handled : List HandlerCall
  err : Option PyErr
deriving Repr, DecidableEq

/-- A freshly accepted `ManagedMDSocket` (state `CONNECTED`, empty stream). -/
def MDState.init : MDState :=
  { stream := [], curtype := none, curlen := none, connected := true,
    recvActivity := false, decoded := [], violations := [], sentData := [],
    handled := [], err := none }

/-- `handleProtocolViolation(reason)`: calls `onProtocolViolation(reason)`
(observed in `violations`), closes the connection, returns `False`. -/
def handleProtocolViolationF (s : MDState) (reason : Nat) : MDState :=
  { s with violations := s.violations ++ [reason], connected := false }

/-- Whitespace for Python 2 `str.strip()` / `lstrip()` / `split(None, 1)`:
space, tab, LF, VT, FF, CR. -/
def pyIsSpace (b : Nat) : Bool := b == 32 || b == 9 || b == 10 || b == 11 || b == 12 || b == 13

/-- Python `s.strip()`. -/
def pyStrip (l : List Nat) : List Nat :=
  ((l.dropWhile pyIsSpace).reverse.dropWhile pyIsSpace).reverse

/-- Python `s.lstrip()`. -/
def pyLstrip (l : List Nat) : List Nat := l.dropWhile pyIsSpace

/-- `self.send(mdPackMessage(ty, msg))`: an `MDPackException` raised by
`mdPackMessage` propagates; otherwise the packed bytes go to `send`. -/
def sendPacked (s : MDState) (ty : Nat) (msg : List Nat) : MDState :=
  match mdPackMessage ty msg with
  | .error e => { s with err := some (.packExc e) }
  | .ok bytes => { s with sentData := s.sentData ++ [bytes] }

/-- Default `onRegClient` of `ManagedMDSocket`: prints and calls
`handleProtocolViolation(MDV_UNIMPLEMENTED)`. -/
def onRegClientBase (s : MDState) (target rest : List Nat) : MDState :=
  handleProtocolViolationF { s with handled := s.handled ++ [.regClient target rest] } MDV_UNIMPLEMENTED

/-- `handleSendMessage(message, handler)`: strips the payload; an empty result
evaluates the undefined global `DCPV_INVALID_ARGUMENTS`, raising a
`NameError`; otherwise splits off the first whitespace-delimited token and
calls `handler(target, rest)`. -/
def handleSendMessageF (s : MDState) (message : List Nat)
    (handler : MDState → List Nat → List Nat → MDState) : MDState :=
  let m := pyStrip message
  if m.length = 0 then
    { s with err := some (.nameError "DCPV_INVALID_ARGUMENTS") }
  else
    let target := m.takeWhile (fun b => !pyIsSpace b)
    let rest := pyLstrip (m.drop target.length)
    handler s target rest

/-- Dispatch of one validated message on the base `ManagedMDSocket` handler
table: type 100 via `handleSendMessage`, types 110/120/130/140 via
`handleRawArg`, anything else to `onUnknown`.  The base `onRegisterOk`
takes no argument, so `handleRawArg` calling `handler(message)` raises a
`TypeError`; base `onRegisterFail`/`onPong` signal `MDV_UNIMPLEMENTED`;
base `onPing` replies with `sendPong(string)`. -/
def dispatchMessage (s : MDState) (ty : Nat) (message : List Nat) : MDState :=
  if ty = MD_REG_CLIENT then
    handleSendMessageF s message onRegClientBase
  else if ty = MD_REGISTER_OK then
    { s with err := some .typeError }
  else if ty = MD_REGISTER_FAIL then
    handleProtocolViolationF { s with handled := s.handled ++ [.registerFail message] } MDV_UNIMPLEMENTED
  else if ty = MD_PING then
    sendPacked { s with handled := s.handled ++ [.ping message] } MD_PONG message
  else if ty = MD_PONG then
    handleProtocolViolationF { s with handled := s.handled ++ [.pong message] } MDV_UNIMPLEMENTED
  else
    { s with handled := s.handled ++ [.unknown ty message] }

/-- The `if len(self.stream) >= self.curlen` tail of `handleStream`: extracts
`stream[4:curlen]`, advances the buffer, validates the charset (violation
closes the connection), records the decoded frame and dispatches it. -/
def handleStreamDispatch (s : MDState) (curlen curty : Nat) : MDState × Bool :=
  if curlen ≤ s.stream.length then
    let message := (s.stream.take curlen).drop 4
    let s2 := { s with curtype := none, curlen := none, stream := s.stream.drop curlen }
    if mdValidateMessage message ≠ MDV_NO_VIOLATION then
      (handleProtocolViolationF s2 (mdValidateMessage message), false)
    else
      let s3 := { s2 with decoded := s2.decoded ++ [(curty, message)] }
      (dispatchMessage s3 curty message, true)
  else (s, false)

/-- `handleStream()`: needs 4 buffered bytes; parses the `!HH` header once per
frame, validating it when freshly parsed (the source's validation is a
no-op); then proceeds to frame dispatch.  Returns `True` exactly when a
frame was consumed. -/
def handleStream (s : MDState) : MDState × Bool :=
  if s.stream.length < 4 then (s, false)
  else
    match s.curtype with
    | none =>
      let len := unpack16 (s.stream.take 2)
      let ty := unpack16 ((s.stream.drop 2).take 2)
      let s1 := { s with curlen := some len, curtype := some ty }
      if mdValidateMessageHeader ty len ≠ MDV_NO_VIOLATION then
        (handleProtocolViolationF s1 (mdValidateMessageHeader ty len), false)
      else
        handleStreamDispatch s1 len ty
    | some ty => handleStreamDispatch s (s.curlen.getD 0) ty

/-- The `while self.isConnected() and self.handleStream(): pass` loop of
`onRecv`, fuelled for termination; an exception raised inside
`handleStream` aborts the loop and propagates. -/
def handleLoop : Nat → MDState → MDState
  | 0, s => s
  | fuel + 1, s =>
    if !s.connected then s
    else
      let r := handleStream s
      if r.1.err.isSome then r.1
      else if r.2 then handleLoop fuel r.1
      else r.1

/-- `onRecv(data)`: flags receive activity, appends to the stream and runs the
decode loop (fuel: one frame consumes at least one byte per step here,
`stream.length + 1` steps suffice for all well-formed traffic). -/
def onRecv (s : MDState) (data : List Nat) : MDState :=
  let s1 := { s with recvActivity := true, stream := s.stream ++ data }
  handleLoop (s1.stream.length + 1) s1

/-- `pollRecvActivity()`: returns the flag and resets it. -/
def pollRecvActivityF (s : MDState) : Bool × MDState :=
  (s.recvActivity, { s with recvActivity := false })

/-! ### `libmd/events.py`: `DeadEvent` and the `heapq` routines it relies on

A `DeadEvent` carries its mutable `delay`, its original `odelay`, and - as
the embedding of the callback payload of `DeferredCall`/`PeriodicCall` - the
events the callback schedules when it runs (`spawns`, fresh one-shot
deferred calls), whether the event is periodic, and the continuation signal
its periodic callback returns.  `eid` models Python object identity; the
source's `__eq__`/`__lt__` compare by `delay` only, which the heap and
`cancelEvent` code below uses. -/

structure DeadEvent where
  eid : Nat
  delay : Rat
  odelay : Rat
  periodic : Bool
  cont : Bool
  spawns : List (Nat × Rat)
deriving Repr, DecidableEq

/-- Junk element for out-of-range `getD` reads (never hit on the in-bounds
index arithmetic of the heap routines). -/
def evDefault : DeadEvent := ⟨0, 0, 0, false, false, []⟩

/-- `heap[i]` in the `heapq` routines. -/
def nthEv (l : List DeadEvent) (i : Nat) : DeadEvent := l.getD i evDefault

/-- `parentpos = (pos - 1) >> 1` of `heapq._siftdown`: the parent index in the
implicit binary tree. -/
def par (c : Nat) : Nat := (c - 1) / 2

/-- The walk of `heapq._siftdown(heap, startpos, pos)` with `newitem` made
explicit: while `pos > startpos`, compare `newitem` with the parent, move
the parent down if `newitem < parent`, else place `newitem`. -/
def siftdownAux (heap : List DeadEvent) (startpos pos : Nat) (newitem : DeadEvent) :
    List DeadEvent :=
  if _h : startpos < pos then
    if newitem.delay < (nthEv heap (par pos)).delay then
      siftdownAux (heap.set pos (nthEv heap (par pos))) startpos (par pos) newitem
    else
      heap.set pos newitem
  else
    heap.set pos newitem
termination_by pos
decreasing_by unfold par ; omega

/-- `heapq._siftdown(heap, startpos, pos)`. -/
def siftdown (heap : List DeadEvent) (startpos pos : Nat) : List DeadEvent :=
  siftdownAux heap startpos pos (nthEv heap pos)

/-- The descending loop of `heapq._siftup`: repeatedly move the smaller child
up into `pos` until `pos` has no child below `endpos`; returns the array
and the final `pos`. -/
def siftupLoop (heap : List DeadEvent) (endpos pos : Nat) : List DeadEvent × Nat :=
  if _h : 2 * pos + 1 < endpos then
    if 2 * pos + 2 < endpos ∧
        ¬ (nthEv heap (2 * pos + 1)).delay <
          (nthEv heap (2 * pos + 2)).delay then
      siftupLoop (heap.set pos (nthEv heap (2 * pos + 2))) endpos (2 * pos + 2)
    else
      siftupLoop (heap.set pos (nthEv heap (2 * pos + 1))) endpos (2 * pos + 1)
  else
    (heap, pos)
termination_by endpos - pos
decreasing_by all_goals omega

/-- `heapq._siftup(heap, pos)`: bubble the vacated `pos` down to a leaf, place
`newitem` there, then `_siftdown(heap, pos, finalpos)` bubbles it back up. -/
def siftup (heap : List DeadEvent) (pos : Nat) : List DeadEvent :=
  let newitem := nthEv heap pos
  let r := siftupLoop heap heap.length pos
  siftdown (r.1.set r.2 newitem) pos r.2

/-- `heapq.heappush(heap, item)`: append then `_siftdown(heap, 0, len-1)`. -/
def heappush (heap : List DeadEvent) (item : DeadEvent) : List DeadEvent :=
  siftdown (heap ++ [item]) 0 heap.length

/-- The heap left behind by `heapq.heappop(heap)` (the popped value is the
root): pop the last element, place it at the root and `_siftup(heap, 0)`. -/
def heappopRest (heap : List DeadEvent) : List DeadEvent :=
  if heap.dropLast.isEmpty then []
  else siftup (heap.dropLast.set 0 (heap.getLastD evDefault)) 0

/-- The loop of `heapq.heapify(x)`: `for i in reversed(range(n//2)): _siftup(x, i)`. -/
def heapifyGo (heap : List DeadEvent) : Nat → List DeadEvent
  | 0 => heap
  | i + 1 => heapifyGo (siftup heap i) i

/-- `heapq.heapify(x)`. -/
def pyHeapify (heap : List DeadEvent) : List DeadEvent :=
  heapifyGo heap (heap.length / 2)

theorem length_siftdownAux (heap : List DeadEvent) (startpos pos : Nat) (newitem : DeadEvent) :
    (siftdownAux heap startpos pos newitem).length = heap.length := by
  induction pos using Nat.strong_induction_on generalizing heap with
  | _ pos ih =>
    rw [siftdownAux]
    split
    · split
      · rw [ih _ (by unfold par ; omega)]
        simp
      · simp
    · simp

theorem length_siftdown (heap : List DeadEvent) (startpos pos : Nat) :
    (siftdown heap startpos pos).length = heap.length := by
  simpa [siftdown] using length_siftdownAux heap startpos pos _

theorem length_siftupLoop (heap : List DeadEvent) (endpos pos : Nat) :
    (siftupLoop heap endpos pos).1.length = heap.length := by
  induction heap, endpos, pos using siftupLoop.induct with
  | case1 heap endpos pos h hc ih =>
    rw [siftupLoop, dif_pos h, if_pos hc, ih, List.length_set]
  | case2 heap endpos pos h hc ih =>
    rw [siftupLoop, dif_pos h, if_neg hc, ih, List.length_set]
  | case3 heap endpos pos h => rw [siftupLoop, dif_neg h]

theorem length_siftup (heap : List DeadEvent) (pos : Nat) :
    (siftup heap pos).length = heap.length := by
  simp [siftup, length_siftdown, length_siftupLoop]

theorem length_heappush (heap : List DeadEvent) (item : DeadEvent) :
    (heappush heap item).length = heap.length + 1 := by
  simp [heappush, length_siftdown]

theorem length_heappopRest (heap : List DeadEvent) :
    (heappopRest heap).length = heap.length - 1 := by
  unfold heappopRest
  split
  · rename_i h
    simp only [List.isEmpty_iff] at h
    have := congrArg List.length h
    simp [List.length_dropLast] at this ⊢
    omega
  · simp [length_siftup, List.length_dropLast]

/-! ### Heap index arithmetic, heap predicates and permutation helpers -/

/-- The min-heap property of `heapq` under `DeadEvent.__lt__` (comparison of
`delay`): every non-root entry is at least its parent. -/
def IsHeap (l : List DeadEvent) : Prop :=
  ∀ c, c < l.length → 0 < c → (nthEv l (par c)).delay ≤ (nthEv l c).delay

instance decIsHeap (l : List DeadEvent) : Decidable (IsHeap l) :=
  show Decidable (∀ c, c < l.length → 0 < c → (nthEv l (par c)).delay ≤ (nthEv l c).delay)
    from inferInstance

/-- Heap property away from the root (what survives overwriting the root). -/
def AlmostHeap (l : List DeadEvent) : Prop :=
  ∀ c, c < l.length → 0 < c → par c ≠ 0 → (nthEv l (par c)).delay ≤ (nthEv l c).delay

/-- All parent-child edges not touching position `p` are heap-ordered. -/
def EdgesExcept (l : List DeadEvent) (p : Nat) : Prop :=
  ∀ c, c < l.length → 0 < c → c ≠ p → par c ≠ p → (nthEv l (par c)).delay ≤ (nthEv l c).delay

/-- Every child of position `p` has delay at least `x`. -/
def ChildrenGe (l : List DeadEvent) (p : Nat) (x : Rat) : Prop :=
  ∀ c, c < l.length → 0 < c → par c = p → x ≤ (nthEv l c).delay

theorem nthEv_cons_zero (a : DeadEvent) (t : List DeadEvent) : nthEv (a :: t) 0 = a := rfl

theorem nthEv_cons_succ (a : DeadEvent) (t : List DeadEvent) (i : Nat) :
    nthEv (a :: t) (i + 1) = nthEv t i := rfl

theorem nthEv_set_self : ∀ (l : List DeadEvent) (i : Nat) (x : DeadEvent),
    i < l.length → nthEv (l.set i x) i = x
  | _ :: _, 0, _, _ => rfl
  | _ :: t, i + 1, x, h => nthEv_set_self t i x (by simpa using h)

theorem nthEv_set_ne : ∀ (l : List DeadEvent) (i j : Nat) (x : DeadEvent),
    i ≠ j → nthEv (l.set i x) j = nthEv l j
  | [], _, _, _, _ => rfl
  | _ :: _, 0, 0, _, h => absurd rfl h
  | _ :: _, 0, _ + 1, _, _ => rfl
  | _ :: _, _ + 1, 0, _, _ => rfl
  | _ :: t, i + 1, j + 1, x, h => nthEv_set_ne t i j x (by omega)

theorem nthEv_append_lt : ∀ (l m : List DeadEvent) (i : Nat),
    i < l.length → nthEv (l ++ m) i = nthEv l i
  | _ :: _, _, 0, _ => rfl
  | _ :: t, m, i + 1, h => nthEv_append_lt t m i (by simpa using h)

theorem nthEv_append_len : ∀ (l : List DeadEvent) (x : DeadEvent),
    nthEv (l ++ [x]) l.length = x
  | [], _ => rfl
  | _ :: t, x => nthEv_append_len t x

theorem nthEv_map : ∀ (f : DeadEvent → DeadEvent) (l : List DeadEvent) (i : Nat),
    i < l.length → nthEv (l.map f) i = f (nthEv l i)
  | _, _ :: _, 0, _ => rfl
  | f, _ :: t, i + 1, h => nthEv_map f t i (by simpa using h)

theorem set_nthEv_self : ∀ (l : List DeadEvent) (i : Nat),
    i < l.length → l.set i (nthEv l i) = l
  | _ :: _, 0, _ => rfl
  | a :: t, i + 1, h => by
    simp only [List.set, nthEv_cons_succ, List.cons.injEq, true_and]
    exact set_nthEv_self t i (by simp at h ; exact h)

theorem set_append_len : ∀ (l : List DeadEvent) (x y : DeadEvent),
    (l ++ [x]).set l.length y = l ++ [y]
  | [], _, _ => rfl
  | a :: t, x, y => by
    simp [List.set]

/-- `nthEv t k :: t.set k x` is `x :: t` up to permutation. -/
theorem perm_nthEv_cons_set : ∀ (t : List DeadEvent) (k : Nat) (x : DeadEvent),
    k < t.length → List.Perm (nthEv t k :: t.set k x) (x :: t)
  | b :: u, 0, x, _ => by
    simpa [nthEv_cons_zero] using List.Perm.swap x b u
  | b :: u, k + 1, x, h => by
    simp only [nthEv_cons_succ, List.set]
    exact (List.Perm.swap b _ _).trans
      (((perm_nthEv_cons_set u k x (by simpa using h)).cons b).trans (List.Perm.swap x b u))

/-- Swapping which of two values sits inside `t.set k` is a permutation. -/
theorem perm_cons_set_swap : ∀ (t : List DeadEvent) (k : Nat) (a x : DeadEvent),
    k < t.length → List.Perm (x :: t.set k a) (a :: t.set k x)
  | b :: u, 0, a, x, _ => List.Perm.swap a x u
  | b :: u, k + 1, a, x, h => by
    simp only [List.set]
    exact (List.Perm.swap b x _).trans
      (((perm_cons_set_swap u k a x (by simpa using h)).cons b).trans (List.Perm.swap a b _))

/-- Moving the value at `j` to `i` and then overwriting `j` permutes like
overwriting `i` directly. -/
theorem perm_set_set : ∀ (l : List DeadEvent) (i j : Nat) (x : DeadEvent),
    i ≠ j → i < l.length → j < l.length →
    List.Perm ((l.set i (nthEv l j)).set j x) (l.set i x)
  | [], _, _, _, _, hi, _ => absurd hi (by simp)
  | a :: t, 0, 0, _, hij, _, _ => absurd rfl hij
  | a :: t, 0, j + 1, x, _, _, hj => by
    simp only [List.set, nthEv_cons_succ]
    exact perm_nthEv_cons_set t j x (by simpa using hj)
  | a :: t, i + 1, 0, x, _, hi, _ => by
    simp only [List.set, nthEv_cons_zero]
    exact perm_cons_set_swap t i a x (by simpa using hi)
  | a :: t, i + 1, j + 1, x, hij, hi, hj => by
    simp only [List.set, nthEv_cons_succ]
    exact (perm_set_set t i j x (by omega) (by simpa using hi) (by simpa using hj)).cons a

/-- The root of a heap is a minimum. -/
theorem isHeap_root_le (l : List DeadEvent) (hh : IsHeap l) :
    ∀ j, j < l.length → (nthEv l 0).delay ≤ (nthEv l j).delay := by
  intro j
  induction j using Nat.strong_induction_on with
  | _ j ih =>
    intro hj
    rcases Nat.eq_zero_or_pos j with h0 | h0
    · subst h0 ; exact le_refl _
    · have hpar : par j < j := by
        unfold par ; omega
      exact le_trans (ih (par j) hpar (lt_trans hpar hj)) (hh j hj h0)

/-- Correctness of the bubble-up walk `_siftdown(heap, 0, pos)` with explicit
`newitem`: from a heap-except-`pos` configuration it restores the heap
property, and the result is `heap.set pos newitem` up to permutation. -/
theorem siftdownAux_spec (pos : Nat) :
    ∀ (heap : List DeadEvent) (newitem : DeadEvent),
      pos < heap.length →
      EdgesExcept heap pos →
      ChildrenGe heap pos newitem.delay →
      (0 < pos → ChildrenGe heap pos ((nthEv heap (par pos)).delay)) →
      IsHeap (siftdownAux heap 0 pos newitem) ∧
        List.Perm (siftdownAux heap 0 pos newitem) (heap.set pos newitem) := by
  induction pos using Nat.strong_induction_on with
  | _ pos ih =>
    intro heap newitem hpos he hc hg
    rw [siftdownAux]
    by_cases h0 : 0 < pos
    · have hparlt : par pos < pos := by unfold par ; omega
      have hparpar : par (par pos) < pos := by
        have h1 : par (par pos) ≤ par pos := by unfold par ; omega
        omega
      rw [dif_pos h0]
      by_cases hlt : newitem.delay < (nthEv heap (par pos)).delay
      · rw [if_pos hlt]
        have he2 : EdgesExcept (heap.set pos (nthEv heap (par pos))) (par pos) := by
          intro c hclen hc0 hcne hcpar
          rw [List.length_set] at hclen
          by_cases hcp : c = pos
          · exact absurd (hcp ▸ rfl) hcpar
          · by_cases hpp : par c = pos
            · rw [hpp, nthEv_set_self _ _ _ hpos, nthEv_set_ne _ _ _ _ (Ne.symm hcp)]
              exact hg h0 c hclen hc0 hpp
            · rw [nthEv_set_ne _ _ _ _ (Ne.symm hpp), nthEv_set_ne _ _ _ _ (Ne.symm hcp)]
              exact he c hclen hc0 hcp hpp
        have hc2 : ChildrenGe (heap.set pos (nthEv heap (par pos))) (par pos)
            newitem.delay := by
          intro c hclen hc0 hcpar
          rw [List.length_set] at hclen
          by_cases hcp : c = pos
          · rw [hcp, nthEv_set_self _ _ _ hpos]
            exact le_of_lt hlt
          · rw [nthEv_set_ne _ _ _ _ (Ne.symm hcp)]
            have hedge := he c hclen hc0 hcp (by omega)
            rw [hcpar] at hedge
            exact le_trans (le_of_lt hlt) hedge
        have hg2 : 0 < par pos →
            ChildrenGe (heap.set pos (nthEv heap (par pos))) (par pos)
              ((nthEv (heap.set pos (nthEv heap (par pos))) (par (par pos))).delay) := by
          intro hp2 c hclen hc0 hcpar
          rw [List.length_set] at hclen
          rw [nthEv_set_ne _ _ _ _ (show pos ≠ par (par pos) by omega)]
          have hedge : (nthEv heap (par (par pos))).delay ≤ (nthEv heap (par pos)).delay :=
            he (par pos) (by omega) hp2 (by omega) (by omega)
          by_cases hcp : c = pos
          · rw [hcp, nthEv_set_self _ _ _ hpos]
            exact hedge
          · rw [nthEv_set_ne _ _ _ _ (Ne.symm hcp)]
            have hedge2 := he c hclen hc0 hcp (by omega)
            rw [hcpar] at hedge2
            exact le_trans hedge hedge2
        have hres := ih (par pos) hparlt (heap.set pos (nthEv heap (par pos))) newitem
          (by rw [List.length_set] ; omega) he2 hc2 hg2
        exact ⟨hres.1,
          hres.2.trans (perm_set_set heap pos (par pos) newitem (by omega) hpos (by omega))⟩
      · rw [if_neg hlt]
        constructor
        · intro c hclen hc0
          rw [List.length_set] at hclen
          by_cases hcp : c = pos
          · subst hcp
            rw [nthEv_set_self _ _ _ hpos, nthEv_set_ne _ _ _ _ (show c ≠ par c by omega)]
            exact le_of_not_lt hlt
          · by_cases hpp : par c = pos
            · rw [hpp, nthEv_set_self _ _ _ hpos, nthEv_set_ne _ _ _ _ (Ne.symm hcp)]
              exact hc c hclen hc0 hpp
            · rw [nthEv_set_ne _ _ _ _ (Ne.symm hpp), nthEv_set_ne _ _ _ _ (Ne.symm hcp)]
              exact he c hclen hc0 hcp hpp
        · exact List.Perm.refl _
    · have hp0 : pos = 0 := by omega
      rw [dif_neg h0]
      subst hp0
      constructor
      · intro c hclen hc0
        rw [List.length_set] at hclen
        have hcne : c ≠ 0 := by omega
        by_cases hpp : par c = 0
        · rw [hpp, nthEv_set_self _ _ _ hpos, nthEv_set_ne _ _ _ _ (Ne.symm hcne)]
          exact hc c hclen hc0 hpp
        · rw [nthEv_set_ne _ _ _ _ (Ne.symm hpp), nthEv_set_ne _ _ _ _ (Ne.symm hcne)]
          exact he c hclen hc0 hcne hpp
      · exact List.Perm.refl _

/-- Correctness of the descending loop of `_siftup` started below a
configuration that is heap-ordered away from `pos`: the hole ends at a
position with no left child, edges away from it stay ordered, and filling
the hole with any value is - up to permutation - filling the original
`pos`. -/
theorem siftupLoop_spec (heap : List DeadEvent) (endpos pos : Nat) :
    endpos = heap.length → pos < endpos →
    EdgesExcept heap pos →
    (0 < pos → ChildrenGe heap pos ((nthEv heap (par pos)).delay)) →
    (siftupLoop heap endpos pos).2 < endpos ∧
      endpos ≤ 2 * (siftupLoop heap endpos pos).2 + 1 ∧
      EdgesExcept (siftupLoop heap endpos pos).1 (siftupLoop heap endpos pos).2 ∧
      (∀ x, List.Perm ((siftupLoop heap endpos pos).1.set (siftupLoop heap endpos pos).2 x)
        (heap.set pos x)) := by
  induction heap, endpos, pos using siftupLoop.induct with
  | case1 heap endpos pos h hcnd ih =>
    intro hend hpos he hg
    have hplen : pos < heap.length := hend ▸ hpos
    have hpar1 : par (2 * pos + 1) = pos := by unfold par ; omega
    have hpar2 : par (2 * pos + 2) = pos := by unfold par ; omega
    have hcp2 : 2 * pos + 2 < heap.length := hend ▸ hcnd.1
    rw [siftupLoop, dif_pos h, if_pos hcnd]
    have he2 : EdgesExcept (heap.set pos (nthEv heap (2 * pos + 2))) (2 * pos + 2) := by
      intro c hclen hc0 hcne hcpar
      rw [List.length_set] at hclen
      by_cases hcp : c = pos
      · rw [hcp, nthEv_set_ne _ _ _ _ (show pos ≠ par pos by unfold par ; omega),
          nthEv_set_self _ _ _ hplen]
        exact hg (hcp ▸ hc0) (2 * pos + 2) hcp2 (by omega) hpar2
      · by_cases hpp : par c = pos
        · have hc1 : c = 2 * pos + 1 := by
            unfold par at hpp ; omega
          subst hc1
          rw [hpp, nthEv_set_self _ _ _ hplen, nthEv_set_ne _ _ _ _ (by omega)]
          exact le_of_not_lt hcnd.2
        · rw [nthEv_set_ne _ _ _ _ (Ne.symm hpp), nthEv_set_ne _ _ _ _ (Ne.symm hcp)]
          exact he c hclen hc0 hcp hpp
    have hg2 : 0 < 2 * pos + 2 →
        ChildrenGe (heap.set pos (nthEv heap (2 * pos + 2))) (2 * pos + 2)
          ((nthEv (heap.set pos (nthEv heap (2 * pos + 2))) (par (2 * pos + 2))).delay) := by
      intro _ c hclen hc0 hcpar
      rw [List.length_set] at hclen
      have hcbig : 2 * (2 * pos + 2) + 1 ≤ c := by unfold par at hcpar ; omega
      rw [hpar2, nthEv_set_self _ _ _ hplen, nthEv_set_ne _ _ _ _ (by omega)]
      have hedge := he c hclen hc0 (by omega) (by rw [hcpar] ; omega)
      rw [hcpar] at hedge
      exact hedge
    obtain ⟨ha, hb, hce, hp⟩ := ih (by rw [List.length_set] ; exact hend) hcnd.1 he2 hg2
    exact ⟨ha, hb, hce,
      fun x => (hp x).trans (perm_set_set heap pos (2 * pos + 2) x (by omega) hplen hcp2)⟩
  | case2 heap endpos pos h hcnd ih =>
    intro hend hpos he hg
    have hplen : pos < heap.length := hend ▸ hpos
    have hpar1 : par (2 * pos + 1) = pos := by unfold par ; omega
    have hpar2 : par (2 * pos + 2) = pos := by unfold par ; omega
    have hcp1 : 2 * pos + 1 < heap.length := hend ▸ h
    rw [siftupLoop, dif_pos h, if_neg hcnd]
    have he2 : EdgesExcept (heap.set pos (nthEv heap (2 * pos + 1))) (2 * pos + 1) := by
      intro c hclen hc0 hcne hcpar
      rw [List.length_set] at hclen
      by_cases hcp : c = pos
      · rw [hcp, nthEv_set_ne _ _ _ _ (show pos ≠ par pos by unfold par ; omega),
          nthEv_set_self _ _ _ hplen]
        exact hg (hcp ▸ hc0) (2 * pos + 1) hcp1 (by omega) hpar1
      · by_cases hpp : par c = pos
        · have hc2 : c = 2 * pos + 2 := by
            unfold par at hpp ; omega
          subst hc2
          have hlt : (nthEv heap (2 * pos + 1)).delay < (nthEv heap (2 * pos + 2)).delay := by
            rcases Decidable.not_and_iff_or_not.mp hcnd with hx | hx
            · exact absurd (hend ▸ hclen) hx
            · exact not_not.mp hx
          rw [hpp, nthEv_set_self _ _ _ hplen, nthEv_set_ne _ _ _ _ (by omega)]
          exact le_of_lt hlt
        · rw [nthEv_set_ne _ _ _ _ (Ne.symm hpp), nthEv_set_ne _ _ _ _ (Ne.symm hcp)]
          exact he c hclen hc0 hcp hpp
    have hg2 : 0 < 2 * pos + 1 →
        ChildrenGe (heap.set pos (nthEv heap (2 * pos + 1))) (2 * pos + 1)
          ((nthEv (heap.set pos (nthEv heap (2 * pos + 1))) (par (2 * pos + 1))).delay) := by
      intro _ c hclen hc0 hcpar
      rw [List.length_set] at hclen
      have hcbig : 2 * (2 * pos + 1) + 1 ≤ c := by unfold par at hcpar ; omega
      rw [hpar1, nthEv_set_self _ _ _ hplen, nthEv_set_ne _ _ _ _ (by omega)]
      have hedge := he c hclen hc0 (by omega) (by rw [hcpar] ; omega)
      rw [hcpar] at hedge
      exact hedge
    obtain ⟨ha, hb, hce, hp⟩ := ih (by rw [List.length_set] ; exact hend) (by omega) he2 hg2
    exact ⟨ha, hb, hce,
      fun x => (hp x).trans (perm_set_set heap pos (2 * pos + 1) x (by omega) hplen hcp1)⟩
  | case3 heap endpos pos h =>
    intro hend hpos he hg
    rw [siftupLoop, dif_neg h]
    exact ⟨hpos, by omega, he, fun x => List.Perm.refl _⟩

theorem nthEv_dropLast : ∀ (l : List DeadEvent) (i : Nat),
    i + 1 < l.length → nthEv l.dropLast i = nthEv l i
  | [], _, h => by simp at h
  | [_], _, h => by simp at h
  | _ :: _ :: _, 0, _ => rfl
  | a :: b :: t, i + 1, h => by
    rw [List.dropLast_cons₂, nthEv_cons_succ, nthEv_cons_succ]
    exact nthEv_dropLast (b :: t) i (by simpa using h)

theorem perm_getLastD_cons_dropLast : ∀ (t : List DeadEvent) (d : DeadEvent),
    t ≠ [] → List.Perm (t.getLastD d :: t.dropLast) t
  | [], _, h => absurd rfl h
  | [a], d, _ => by
    simp [List.getLastD]
  | a :: b :: u, d, _ => by
    rw [List.getLastD_cons, List.dropLast_cons₂]
    exact (List.Perm.swap a _ _).trans
      ((perm_getLastD_cons_dropLast (b :: u) a (by simp)).cons a)

/-- Correctness of `_siftup(heap, 0)` on an array that is heap-ordered except
possibly at the root: restores the heap property and permutes nothing. -/
theorem siftup_zero_spec (m : List DeadEvent) (hne : 0 < m.length) (ha : AlmostHeap m) :
    IsHeap (siftup m 0) ∧ List.Perm (siftup m 0) m := by
  obtain ⟨hfp, hleaf, hee, hperm⟩ := siftupLoop_spec m m.length 0 rfl hne
    (fun c hclen hc0 _ hcpar => ha c hclen hc0 hcpar)
    (fun h => absurd h (lt_irrefl 0))
  simp only [siftup]
  have hlen1 : (siftupLoop m m.length 0).1.length = m.length := length_siftupLoop m m.length 0
  have hfp1 : (siftupLoop m m.length 0).2 < ((siftupLoop m m.length 0).1.set
      (siftupLoop m m.length 0).2 (nthEv m 0)).length := by
    rw [List.length_set, hlen1] ; exact hfp
  have hfpA : (siftupLoop m m.length 0).2 < (siftupLoop m m.length 0).1.length := by
    rw [hlen1] ; exact hfp
  unfold siftdown
  rw [nthEv_set_self _ _ _ hfpA]
  obtain ⟨hh, hp⟩ := siftdownAux_spec (siftupLoop m m.length 0).2
    ((siftupLoop m m.length 0).1.set (siftupLoop m m.length 0).2 (nthEv m 0)) (nthEv m 0)
    hfp1
    (by
      intro c hclen hc0 hcne hcpar
      rw [List.length_set, hlen1] at hclen
      rw [nthEv_set_ne _ _ _ _ (Ne.symm hcpar), nthEv_set_ne _ _ _ _ (Ne.symm hcne)]
      exact hee c (by rw [hlen1] ; exact hclen) hc0 hcne hcpar)
    (by
      intro c hclen hc0 hcpar
      exfalso
      rw [List.length_set, hlen1] at hclen
      have : 2 * (siftupLoop m m.length 0).2 + 1 ≤ c := by unfold par at hcpar ; omega
      omega)
    (by
      intro _ c hclen hc0 hcpar
      exfalso
      rw [List.length_set, hlen1] at hclen
      have : 2 * (siftupLoop m m.length 0).2 + 1 ≤ c := by unfold par at hcpar ; omega
      omega)
  refine ⟨hh, hp.trans ?_⟩
  rw [List.set_set]
  exact (hperm (nthEv m 0)).trans (by rw [set_nthEv_self m 0 hne])

/-- `heappush` into a heap: the result is a heap holding the old contents plus
the new item. -/
theorem heappush_spec (l : List DeadEvent) (item : DeadEvent) (hh : IsHeap l) :
    IsHeap (heappush l item) ∧ List.Perm (heappush l item) (item :: l) := by
  unfold heappush siftdown
  have hlen : l.length < (l ++ [item]).length := by simp
  rw [nthEv_append_len]
  obtain ⟨h1, h2⟩ := siftdownAux_spec l.length (l ++ [item]) item hlen
    (by
      intro c hclen hc0 hcne hcpar
      simp only [List.length_append, List.length_singleton] at hclen
      have hcl : c < l.length := by omega
      have hpcl : par c < l.length := by unfold par ; omega
      rw [nthEv_append_lt _ _ _ hcl, nthEv_append_lt _ _ _ hpcl]
      exact hh c hcl hc0)
    (by
      intro c hclen hc0 hcpar
      exfalso
      simp only [List.length_append, List.length_singleton] at hclen
      unfold par at hcpar ; omega)
    (by
      intro _ c hclen hc0 hcpar
      exfalso
      simp only [List.length_append, List.length_singleton] at hclen
      unfold par at hcpar ; omega)
  refine ⟨h1, h2.trans ?_⟩
  rw [set_append_len]
  exact List.perm_append_singleton item l

/-- The heap left by `heappop` on an array heap-ordered away from the root:
a heap again, holding exactly the non-root elements. -/
theorem heappopRest_spec (l : List DeadEvent) (ha : AlmostHeap l) :
    IsHeap (heappopRest l) ∧ List.Perm (heappopRest l) l.tail := by
  unfold heappopRest
  split
  · rename_i hemp
    have hlen : l.length ≤ 1 := by
      have h1 := congrArg List.length (List.isEmpty_iff.mp hemp)
      simp [List.length_dropLast] at h1
      omega
    refine ⟨fun c hclen hc0 => by simp at hclen, ?_⟩
    match l, hlen with
    | [], _ => exact List.Perm.refl _
    | [a], _ => exact List.Perm.refl _
  · rename_i hemp
    have hlen2 : 2 ≤ l.length := by
      rcases l with _ | ⟨a, t⟩
      · simp at hemp
      · rcases t with _ | ⟨b, u⟩
        · simp at hemp
        · simp
    have hmlen : (l.dropLast.set 0 (l.getLastD evDefault)).length = l.length - 1 := by
      simp [List.length_dropLast]
    have halm : AlmostHeap (l.dropLast.set 0 (l.getLastD evDefault)) := by
      intro c hclen hc0 hcpar
      rw [hmlen] at hclen
      rw [nthEv_set_ne _ _ _ _ (Ne.symm hcpar),
        nthEv_set_ne _ _ _ _ (Ne.symm (show c ≠ 0 by omega))]
      rw [nthEv_dropLast _ _ (show par c + 1 < l.length by unfold par ; omega),
        nthEv_dropLast _ _ (show c + 1 < l.length by omega)]
      exact ha c (by omega) hc0 hcpar
    obtain ⟨h1, h2⟩ := siftup_zero_spec _ (by rw [hmlen] ; omega) halm
    refine ⟨h1, h2.trans ?_⟩
    rcases l with _ | ⟨a, t⟩
    · simp at hlen2
    · rcases t with _ | ⟨b, u⟩
      · simp at hlen2
      · rw [List.dropLast_cons₂, List.getLastD_cons]
        simp only [List.set_cons_zero, List.tail_cons]
        exact perm_getLastD_cons_dropLast (b :: u) a (by simp)

/-! ### `libmd/events.py`: `DeadEventQueue` -/

/-- Epsilon from `DeadEvent.elapseTime`: fires when `delay <= 0.001`. -/
def eventEps : Rat := 1 / 1000

/-- The `self.delay -= time` of `DeadEvent.elapseTime`. -/
def DeadEvent.dec (e : DeadEvent) (t : Rat) : DeadEvent := { e with delay := e.delay - t }

/-- A fresh one-shot `DeferredCall(delay, ...)` created by a firing callback. -/
def mkSpawn (p : Nat × Rat) : DeadEvent :=
  { eid := p.1, delay := p.2, odelay := p.2, periodic := false, cont := false, spawns := [] }

/-- The events a firing event hands to `eq.scheduleEvent` from inside
`trigger`: the fresh deferred calls its callback schedules, and - for a
`PeriodicCall` whose callback returned `True` - itself re-armed with
`delay = odelay`. -/
def DeadEvent.triggerScheds (e : DeadEvent) : List DeadEvent :=
  e.spawns.map mkSpawn ++
    (if e.periodic ∧ e.cont then [{ e with delay := e.odelay }] else [])

/-- `DeadEventQueue` state: the event list (a binary heap when `isheap`), the
dirty-heap flag, the advancing flag and the two staging lists that exist
during `elapseTime`. -/
structure DeadEventQueue where
  events : List DeadEvent
  isheap : Bool
  elapsing : Bool
  scheds : List DeadEvent
  cancels : List DeadEvent
deriving Repr, DecidableEq

/-- `DeadEventQueue.__init__`. -/
def DeadEventQueue.init : DeadEventQueue :=
  { events := [], isheap := true, elapsing := false, scheds := [], cancels := [] }

/-- `scheduleEvent(event)`: defer to `scheds` while elapsing; else repair the
heap if dirty and `heappush`. -/
def DeadEventQueue.scheduleEvent (q : DeadEventQueue) (ev : DeadEvent) : DeadEventQueue :=
  if q.elapsing then { q with scheds := q.scheds ++ [ev] }
  else
    let evs := if q.isheap then q.events else pyHeapify q.events
    { q with events := heappush evs ev, isheap := true }

/-- `cancelEvent(ev)`: defer to `cancels` while elapsing; else, if `ev in
self.events` - membership through `DeadEvent.__eq__`, i.e. equality of
`delay` - remove the first event with equal delay and mark the heap dirty
unless it became empty. -/
def DeadEventQueue.cancelEvent (q : DeadEventQueue) (ev : DeadEvent) : DeadEventQueue :=
  if q.elapsing then { q with cancels := q.cancels ++ [ev] }
  else if q.events.any (fun x => x.delay == ev.delay) then
    let evs := q.events.eraseP (fun x => x.delay == ev.delay)
    { q with events := evs, isheap := evs.isEmpty }
  else q

/-- The `while len(self.events) and self.events[0].elapseTime(time, self):
heappop(self.events)` loop: evaluating the condition decrements the root
in place and - on firing - runs its trigger (whose `scheduleEvent` calls
land in the staging list because `elapsing` is set) before the pop.
Returns the remaining events, the staging list and the fired events (at
their decremented delays, in firing order). -/
def elapseLoop (t : Rat) : List DeadEvent → List DeadEvent →
    List DeadEvent × List DeadEvent × List DeadEvent
  | [], scheds => ([], scheds, [])
  | e :: rest, scheds =>
    let e1 := e.dec t
    if e1.delay ≤ eventEps then
      let r := elapseLoop t (heappopRest (e1 :: rest)) (scheds ++ e1.triggerScheds)
      (r.1, r.2.1, e1 :: r.2.2)
    else
      (e1 :: rest, scheds, [])
termination_by l => l.length
decreasing_by simp [length_heappopRest]

/-- The `for ev in self.events[1:]: ev.elapseTime(time, self)` pass:
decrement every remaining non-root event in place, running (but not
popping) the trigger of any that fires. -/
def elapseRestAux (t : Rat) : List DeadEvent → List DeadEvent →
    List DeadEvent × List DeadEvent × List DeadEvent
  | [], scheds => ([], scheds, [])
  | e :: rest, scheds =>
    let e1 := e.dec t
    if e1.delay ≤ eventEps then
      let r := elapseRestAux t rest (scheds ++ e1.triggerScheds)
      (e1 :: r.1, r.2.1, e1 :: r.2.2)
    else
      let r := elapseRestAux t rest scheds
      (e1 :: r.1, r.2.1, r.2.2)

/-- The elapsing section of `elapseTime` (between setting and clearing
`self.elapsing`): the pop-while-firing loop followed by the pass over
`events[1:]`. -/
def elapseBody (t : Rat) (l : List DeadEvent) (scheds : List DeadEvent) :
    List DeadEvent × List DeadEvent × List DeadEvent :=
  let r := elapseLoop t l scheds
  match r.1 with
  | [] => ([], r.2.1, r.2.2)
  | e0 :: rest =>
    let r2 := elapseRestAux t rest r.2.1
    (e0 :: r2.1, r2.2.1, r.2.2 ++ r2.2.2)

/-- `elapseTime(time)`: reset the staging lists, repair the heap if dirty,
run the elapsing section, then re-schedule everything staged meanwhile
through the normal `scheduleEvent` path (the modelled callbacks - deferred
calls and periodic re-arms - never cancel, so the `cancels` staging list
stays empty and its application pass is a no-op).  Also returns the fired
events in firing order. -/
def DeadEventQueue.elapseTime (q : DeadEventQueue) (t : Rat) :
    DeadEventQueue × List DeadEvent :=
  let evs0 := if q.isheap then q.events else pyHeapify q.events
  let r := elapseBody t evs0 []
  let qmid : DeadEventQueue :=
    { events := r.1, isheap := true, elapsing := false, scheds := [], cancels := [] }
  let qfin := r.2.1.foldl DeadEventQueue.scheduleEvent qmid
  (qfin, r.2.2)

/-- Flattened trigger-scheduled events of a fired list, in firing order (the
contents of the `scheds` staging list that one `elapseTime` accumulates). -/
def flatTriggers : List DeadEvent → List DeadEvent
  | [] => []
  | e :: f => e.triggerScheds ++ flatTriggers f

/-- `nextEventTicks()`: repair the heap if dirty, then the root's delay (or
`None` when empty). -/
def DeadEventQueue.nextEventTicks (q : DeadEventQueue) : Option Rat × DeadEventQueue :=
  let evs := if q.isheap then q.events else pyHeapify q.events
  let q1 := { q with events := evs, isheap := true }
  match evs with
  | [] => (none, q1)
  | e :: _ => (some e.delay, q1)

/-! ### Specification of `elapseTime` over a heap-ordered queue -/

theorem nthEv_cons_irrel (a b : DeadEvent) (t : List DeadEvent) (i : Nat) (h : 0 < i) :
    nthEv (a :: t) i = nthEv (b :: t) i := by
  cases i with
  | zero => omega
  | succ j => rfl

/-- Replacing the root (in particular decrementing it in place) keeps all
non-root edges ordered. -/
theorem almostHeap_cons (e e1 : DeadEvent) (rest : List DeadEvent)
    (hh : IsHeap (e :: rest)) : AlmostHeap (e1 :: rest) := by
  intro c hclen hc0 hcpar
  rw [nthEv_cons_irrel e1 e _ c hc0, nthEv_cons_irrel e1 e _ (par c) (by omega)]
  exact hh c (by simpa using hclen) hc0

theorem exists_nthEv_of_mem : ∀ (l : List DeadEvent) (a : DeadEvent), a ∈ l →
    ∃ i, i < l.length ∧ nthEv l i = a
  | b :: t, a, h => by
    rcases List.mem_cons.mp h with h1 | h2
    · exact ⟨0, by simp, h1.symm⟩
    · obtain ⟨i, hi, he⟩ := exists_nthEv_of_mem t a h2
      exact ⟨i + 1, by simp ; omega, he⟩

/-- In a heap the head is at most every element of the tail. -/
theorem isHeap_head_le (e : DeadEvent) (rest : List DeadEvent)
    (hh : IsHeap (e :: rest)) : ∀ a ∈ rest, e.delay ≤ a.delay := by
  intro a ha
  obtain ⟨i, hi, he⟩ := exists_nthEv_of_mem rest a ha
  have h0 := isHeap_root_le (e :: rest) hh (i + 1) (by simp ; omega)
  rw [nthEv_cons_zero] at h0
  rw [nthEv_cons_succ, he] at h0
  exact h0

/-- Uniform decrements preserve heap order. -/
theorem isHeap_map_dec (l : List DeadEvent) (t : Rat) (hh : IsHeap l) :
    IsHeap (l.map (fun e => e.dec t)) := by
  intro c hclen hc0
  rw [List.length_map] at hclen
  have hpar : par c < l.length := by unfold par ; omega
  rw [nthEv_map _ _ _ hclen, nthEv_map _ _ _ hpar]
  simpa [DeadEvent.dec] using sub_le_sub_right (hh c hclen hc0) t

theorem elapseRestAux_nofire (t : Rat) : ∀ (rest s : List DeadEvent),
    (∀ a ∈ rest, ¬((a.dec t).delay ≤ eventEps)) →
    elapseRestAux t rest s = (rest.map (fun e => e.dec t), s, [])
  | [], _, _ => rfl
  | e :: rest, s, h => by
    simp only [elapseRestAux]
    rw [if_neg (h e (by simp))]
    rw [elapseRestAux_nofire t rest s (fun a ha => h a (List.mem_cons_of_mem e ha))]
    simp

theorem elapseBody_nil (t : Rat) (s : List DeadEvent) : elapseBody t [] s = ([], s, []) := by
  simp [elapseBody, elapseLoop]

theorem elapseBody_cons_fire (t : Rat) (e : DeadEvent) (rest s : List DeadEvent)
    (h : (e.dec t).delay ≤ eventEps) :
    elapseBody t (e :: rest) s =
      ((elapseBody t (heappopRest (e.dec t :: rest)) (s ++ (e.dec t).triggerScheds)).1,
        (elapseBody t (heappopRest (e.dec t :: rest)) (s ++ (e.dec t).triggerScheds)).2.1,
        e.dec t ::
          (elapseBody t (heappopRest (e.dec t :: rest)) (s ++ (e.dec t).triggerScheds)).2.2) := by
  simp only [elapseBody]
  rw [elapseLoop]
  simp only []
  rw [if_pos h]
  cases hA : (elapseLoop t (heappopRest (e.dec t :: rest)) (s ++ (e.dec t).triggerScheds)).1 with
  | nil => simp [hA]
  | cons e0 rest2 => simp [hA]

theorem elapseBody_cons_nofire (t : Rat) (e : DeadEvent) (rest s : List DeadEvent)
    (h : ¬ (e.dec t).delay ≤ eventEps) :
    elapseBody t (e :: rest) s =
      (e.dec t :: (elapseRestAux t rest s).1, (elapseRestAux t rest s).2.1,
        (elapseRestAux t rest s).2.2) := by
  simp only [elapseBody]
  rw [elapseLoop]
  simp only []
  rw [if_neg h]
  simp

/-- Full behaviour of the elapsing section on a heap-ordered event list
(induction fuel on the length): exactly the events whose decremented delay
reaches the epsilon fire (each once, logged at its decremented delay), the
rest stay - decremented once each - as a heap, and the staging list
collects precisely the trigger schedulings of the fired events in firing
order. -/
theorem elapseBody_spec_aux (t : Rat) (n : Nat) : ∀ (l : List DeadEvent), l.length ≤ n →
    IsHeap l → ∀ (s : List DeadEvent),
    ((elapseBody t l s).2.2 : Multiset DeadEvent) =
      ↑((l.map (fun e => e.dec t)).filter (fun e => decide (e.delay ≤ eventEps))) ∧
    ((elapseBody t l s).1 : Multiset DeadEvent) =
      ↑((l.map (fun e => e.dec t)).filter (fun e => !decide (e.delay ≤ eventEps))) ∧
    IsHeap (elapseBody t l s).1 ∧
    (elapseBody t l s).2.1 = s ++ flatTriggers (elapseBody t l s).2.2 := by
  induction n with
  | zero =>
    intro l hl hh s
    match l, hl with
    | [], _ =>
      rw [elapseBody_nil]
      exact ⟨by simp, by simp, fun c hc h0 => by simp at hc, by simp [flatTriggers]⟩
  | succ n ihn =>
    intro l hl hh s
    match l with
    | [] =>
      rw [elapseBody_nil]
      exact ⟨by simp, by simp, fun c hc h0 => by simp at hc, by simp [flatTriggers]⟩
    | e :: rest =>
      by_cases hfire : (e.dec t).delay ≤ eventEps
      · have halm : AlmostHeap (e.dec t :: rest) := almostHeap_cons e _ rest hh
        obtain ⟨hH2, hP2⟩ := heappopRest_spec _ halm
        have hP2' : List.Perm (heappopRest (e.dec t :: rest)) rest := hP2
        have hlen2 : (heappopRest (e.dec t :: rest)).length ≤ n := by
          rw [hP2'.length_eq]
          simp only [List.length_cons] at hl
          omega
        obtain ⟨ihf, ihe, ihh, ihs⟩ :=
          ihn (heappopRest (e.dec t :: rest)) hlen2 hH2 (s ++ (e.dec t).triggerScheds)
        rw [elapseBody_cons_fire t e rest s hfire]
        have hpe : decide ((e.dec t).delay ≤ eventEps) = true := decide_eq_true hfire
        refine ⟨?_, ?_, ihh, ?_⟩
        · simp only [List.map_cons, List.filter_cons, hpe, if_true, ← Multiset.cons_coe]
          rw [ihf]
          exact congrArg (fun m => e.dec t ::ₘ m)
            (Multiset.coe_eq_coe.mpr ((hP2'.map _).filter _))
        · rw [ihe]
          simp only [List.map_cons, List.filter_cons, hpe, Bool.not_true, if_false]
          exact Multiset.coe_eq_coe.mpr ((hP2'.map _).filter _)
        · rw [ihs]
          simp [flatTriggers, List.append_assoc]
      · have hall : ∀ a ∈ rest, ¬ ((a.dec t).delay ≤ eventEps) := by
          intro a ha hcon
          apply hfire
          have hle := isHeap_head_le e rest hh a ha
          calc (e.dec t).delay = e.delay - t := rfl
            _ ≤ a.delay - t := sub_le_sub_right hle t
            _ = (a.dec t).delay := rfl
            _ ≤ eventEps := hcon
        rw [elapseBody_cons_nofire t e rest s hfire, elapseRestAux_nofire t rest s hall]
        have hmem : ∀ b ∈ e.dec t :: rest.map (fun x => x.dec t),
            ¬ (b.delay ≤ eventEps) := by
          intro b hb
          rcases List.mem_cons.mp hb with h1 | h2
          · subst h1 ; exact hfire
          · obtain ⟨a, ha, rfl⟩ := List.mem_map.mp h2
            exact hall a ha
        have hnil : (e.dec t :: rest.map (fun x => x.dec t)).filter
            (fun x => decide (x.delay ≤ eventEps)) = [] :=
          List.filter_eq_nil_iff.mpr (fun b hb => by simpa using hmem b hb)
        have hself : (e.dec t :: rest.map (fun x => x.dec t)).filter
            (fun x => !decide (x.delay ≤ eventEps)) = e.dec t :: rest.map (fun x => x.dec t) :=
          List.filter_eq_self.mpr (fun b hb => by simpa using hmem b hb)
        refine ⟨by simp [hnil], ?_, ?_, by simp [flatTriggers]⟩
        · simp only [List.map_cons, hself]
        · simpa [List.map_cons] using isHeap_map_dec (e :: rest) t hh

/-- Applying the deferred `scheduleEvent` calls after an advance: each one is a
`heappush`, preserving the heap property and adding exactly the staged
events. -/
theorem foldl_scheduleEvent_spec : ∀ (ss : List DeadEvent) (q : DeadEventQueue),
    IsHeap q.events → q.isheap = true → q.elapsing = false →
    IsHeap (ss.foldl DeadEventQueue.scheduleEvent q).events ∧
    (ss.foldl DeadEventQueue.scheduleEvent q).isheap = true ∧
    (ss.foldl DeadEventQueue.scheduleEvent q).elapsing = false ∧
    (ss.foldl DeadEventQueue.scheduleEvent q).scheds = q.scheds ∧
    (ss.foldl DeadEventQueue.scheduleEvent q).cancels = q.cancels ∧
    ((ss.foldl DeadEventQueue.scheduleEvent q).events : Multiset DeadEvent) =
      ↑q.events + ↑ss
  | [], q, hh, hi, he => by
    refine ⟨hh, hi, he, rfl, rfl, by simp⟩
  | a :: ss, q, hh, hi, he => by
    have hstep : DeadEventQueue.scheduleEvent q a =
        { q with events := heappush q.events a, isheap := true } := by
      simp [DeadEventQueue.scheduleEvent, he, hi]
    obtain ⟨hpH, hpP⟩ := heappush_spec q.events a hh
    have hfold := foldl_scheduleEvent_spec ss
      { q with events := heappush q.events a, isheap := true } hpH rfl he
    rw [List.foldl_cons, hstep]
    refine ⟨hfold.1, hfold.2.1, hfold.2.2.1, hfold.2.2.2.1, hfold.2.2.2.2.1, ?_⟩
    rw [hfold.2.2.2.2.2]
    have hcoe : (↑(heappush q.events a) : Multiset DeadEvent) = ↑(a :: q.events) :=
      Multiset.coe_eq_coe.mpr hpP
    rw [hcoe, Multiset.coe_add, Multiset.coe_add, Multiset.coe_eq_coe]
    exact List.perm_middle.symm

/-- Full behaviour of `elapseTime` on a heap-ordered queue: the fired log is
exactly the decremented events that reached the epsilon, the surviving
events are the decremented non-fired ones plus everything the fired
callbacks scheduled, and the result is a clean heap-ordered queue. -/
theorem elapseTime_full_spec (q : DeadEventQueue) (t : Rat)
    (hh : IsHeap q.events) (hisheap : q.isheap = true) :
    ((q.elapseTime t).2 : Multiset DeadEvent) =
      ↑((q.events.map (fun e => e.dec t)).filter (fun e => decide (e.delay ≤ eventEps))) ∧
    ((q.elapseTime t).1.events : Multiset DeadEvent) =
      ↑((q.events.map (fun e => e.dec t)).filter (fun e => !decide (e.delay ≤ eventEps))) +
        ↑(flatTriggers (q.elapseTime t).2) ∧
    IsHeap (q.elapseTime t).1.events ∧
    (q.elapseTime t).1.isheap = true ∧ (q.elapseTime t).1.elapsing = false ∧
    (q.elapseTime t).1.scheds = [] ∧ (q.elapseTime t).1.cancels = [] := by
  obtain ⟨hf, he, hH, hs⟩ := elapseBody_spec_aux t q.events.length q.events le_rfl hh []
  unfold DeadEventQueue.elapseTime
  simp only [hisheap, if_true]
  obtain ⟨fH, fi, fe, fsch, fcan, fmult⟩ := foldl_scheduleEvent_spec
    (elapseBody t q.events []).2.1
    { events := (elapseBody t q.events []).1, isheap := true, elapsing := false,
      scheds := [], cancels := [] } hH rfl rfl
  refine ⟨hf, ?_, fH, fi, fe, fsch, fcan⟩
  rw [fmult, he]
  simp only [List.nil_append] at hs
  rw [hs]

/-! ### `libmd/mulsoc.py`: `ManagedSocket`

The socket state machine of `ManagedSocket`.  The OS is a parameter: one
`ConnectRes` for the pending `connect(2)` outcome and a list of `SendRes`
consumed by successive `socket.send` calls of the write loop (an exhausted
list means the OS reported nothing further; the loop is left).  The
multiplexer's interest lists and the observation ghosts (bytes the OS
accepted, hook invocations, an escaped `socket.error`) live in the same
record. -/

inductive SockState where
  | UNBOUND
  | CONNECTING
  | CONNECTED
  | DISCONNECTED
  | LISTENING
  | CLOSED
deriving Repr, DecidableEq

inductive SendRes where
  | sent (n : Nat)
  | errPipe
  | errConnReset
  | errTimedOut
  | errWouldBlock
  | errIntr
  | errOther
deriving Repr, DecidableEq

inductive ConnectRes where
  | ok
  | refused
  | timedout
  | reset
  | again
  | inprogress
  | other
deriving Repr, DecidableEq

structure MSockCtx where
  state : SockState
  wbuf : List Nat
  lwb : Bool
  readers : List Nat
  writers : List Nat
  transmitted : List Nat
  disconnects : Nat
  refuses : Nat
  connects : Nat
  raised : Bool
deriving Repr, DecidableEq

/-- `SocketMultiplexer.addWriter`: append unless present. -/
def addWriter (ctx : MSockCtx) (selfId : Nat) : MSockCtx :=
  if selfId ∈ ctx.writers then ctx else { ctx with writers := ctx.writers ++ [selfId] }

/-- `SocketMultiplexer.delWriter`: remove the first occurrence if present. -/
def delWriter (ctx : MSockCtx) (selfId : Nat) : MSockCtx :=
  { ctx with writers := ctx.writers.erase selfId }

/-- `SocketMultiplexer.addReader`. -/
def addReader (ctx : MSockCtx) (selfId : Nat) : MSockCtx :=
  if selfId ∈ ctx.readers then ctx else { ctx with readers := ctx.readers ++ [selfId] }

/-- `SocketMultiplexer.delReader`. -/
def delReader (ctx : MSockCtx) (selfId : Nat) : MSockCtx :=
  { ctx with readers := ctx.readers.erase selfId }

/-- `ManagedSocket.handleConnect`: already-`CONNECTED` returns `False`; a first
call moves to `CONNECTING` and registers write interest; then the OS
`connect` outcome: success goes `CONNECTED` (on-connect hook, read interest
on, write interest off), refusal/timeout/reset goes `DISCONNECTED`
(on-refuse hook, write interest off, `False`), `EAGAIN` returns `False`,
`EINPROGRESS` falls through to `True`, anything else raises. -/
def msHandleConnect (cr : ConnectRes) (selfId : Nat) (ctx : MSockCtx) : MSockCtx × Bool :=
  if ctx.state = SockState.CONNECTED then (ctx, false)
  else
    let ctx1 := if ctx.state ≠ SockState.CONNECTING then
        addWriter { ctx with state := SockState.CONNECTING } selfId
      else ctx
    match cr with
    | .ok =>
      let ctx2 := { ctx1 with state := SockState.CONNECTED, connects := ctx1.connects + 1 }
      (delWriter (addReader ctx2 selfId) selfId, true)
    | .refused | .timedout | .reset =>
      let ctx2 := { ctx1 with state := SockState.DISCONNECTED, refuses := ctx1.refuses + 1 }
      (delWriter ctx2 selfId, false)
    | .again => (ctx1, false)
    | .inprogress => (ctx1, true)
    | .other => ({ ctx1 with raised := true }, true)

/-- The `while len(self._wbuf) and self._state == CONNECTED` loop of
`handleWrite`: each iteration sends `wbuf[:4096]`; on `n` bytes accepted
the buffer advances, EPIPE/ECONNRESET/ETIMEDOUT disconnects (hook, clear
buffer, early `return False` - the `Bool` result), EWOULDBLOCK registers
write interest (setting the last-write-blocked flag) and breaks, EINTR
breaks, any other error propagates. -/
def msWriteLoop (selfId : Nat) : List SendRes → MSockCtx → MSockCtx × Bool
  | os, ctx =>
    if ctx.wbuf.length ≠ 0 ∧ ctx.state = SockState.CONNECTED then
      match os with
      | [] => (ctx, false)
      | r :: os2 =>
        match r with
        | .sent x =>
          let n := min x (ctx.wbuf.take 4096).length
          msWriteLoop selfId os2
            { ctx with transmitted := ctx.transmitted ++ ctx.wbuf.take n,
                       wbuf := ctx.wbuf.drop n }
        | .errPipe | .errConnReset | .errTimedOut =>
          let ctx2 := delReader { ctx with state := SockState.DISCONNECTED } selfId
          let ctx3 := if ctx2.lwb then delWriter ctx2 selfId else ctx2
          ({ ctx3 with disconnects := ctx3.disconnects + 1, wbuf := [] }, true)
        | .errWouldBlock =>
          (if ctx.lwb then ctx else addWriter { ctx with lwb := true } selfId, false)
        | .errIntr => (ctx, false)
        | .errOther => ({ ctx with raised := true }, true)
    else (ctx, false)

/-- `ManagedSocket.handleWrite`: `CONNECTING` delegates to the connect
negotiation; any other non-`CONNECTED` state returns `False`; otherwise
run the write loop and - unless it early-returned - drop write interest
once the buffer is drained. -/
def msHandleWrite (cr : ConnectRes) (os : List SendRes) (selfId : Nat) (ctx : MSockCtx) :
    MSockCtx × Bool :=
  if ctx.state = SockState.CONNECTING then ((msHandleConnect cr selfId ctx).1, true)
  else if ctx.state ≠ SockState.CONNECTED then (ctx, false)
  else
    let r := msWriteLoop selfId os ctx
    if r.2 then (r.1, false)
    else
      let ctx2 := if r.1.wbuf.length = 0 ∧ r.1.lwb then delWriter r.1 selfId else r.1
      (ctx2, true)

/-- `ManagedSocket.send(data)`: a non-`CONNECTED` socket returns `False`
immediately; otherwise the data is appended to the outbound buffer, an
immediate flush is attempted, and the result reports whether the
connection survived. -/
def msSend (cr : ConnectRes) (os : List SendRes) (selfId : Nat) (ctx : MSockCtx)
    (data : List Nat) : MSockCtx × Bool :=
  if ctx.state ≠ SockState.CONNECTED then (ctx, false)
  else
    let ctx1 := { ctx with wbuf := ctx.wbuf ++ data }
    let r := msHandleWrite cr os selfId ctx1
    (r.1, r.1.state = SockState.CONNECTED)

/-! ### `libmd/mulsoc.py`: `SocketMultiplexer.startMultiplex` up to the wait -/

structure SocketMultiplexer where
  keepRunning : Bool
  reads : List Nat
  writes : List Nat
  eq : DeadEventQueue
deriving Repr, DecidableEq

/-- `SocketMultiplexer.__init__`. -/
def SocketMultiplexer.init : SocketMultiplexer :=
  { keepRunning := false, reads := [], writes := [], eq := DeadEventQueue.init }

/-- What the first loop iteration of `startMultiplex` does before suspending:
either it raises `Deadlock` or it reaches `select` with some timeout. -/
inductive ReactorStep where
  | deadlock
  | wait (timeout : Option Rat)
deriving Repr, DecidableEq

/-- The first iteration of `startMultiplex` up to the `select` call: sets the
running flag; the events-system step makes its `nextEventTicks` calls but
elapses nothing (`tick` starts as `None`); then the activity-deadlock
guard - both interest sets empty and no pending event - raises `Deadlock`;
otherwise the iteration reaches `select(reads, writes, [],
nextEventTicks())`. -/
def startMultiplexFirst (m : SocketMultiplexer) : ReactorStep × SocketMultiplexer :=
  let m1 : SocketMultiplexer := { m with keepRunning := true }
  let n1 := m1.eq.nextEventTicks
  let m2 := { m1 with eq := n1.2 }
  let n2 := m2.eq.nextEventTicks
  let m3 := { m2 with eq := n2.2 }
  if m3.reads.length + m3.writes.length = 0 ∧ n2.1 = none then (ReactorStep.deadlock, m3)
  else
    let n3 := m3.eq.nextEventTicks
    (ReactorStep.wait n3.1, { m3 with eq := n3.2 })

/-! ### `server.py`: keep-alive monitor and client registry -/

/-- `PING_RUN_PERIOD = 10`. -/
def PING_RUN_PERIOD : Rat := 10

/-- `PING_TIMEOUT = 5.0`. -/
def PING_TIMEOUT : Rat := 5

/-- One client socket object as the keep-alive monitor sees it: `cid` models
Python object identity (the `client2sock` values are references, so one
object may sit under several names), `name` is the socket's `client_name`
attribute (the last name registered on it, which `drop` deletes), then the
`recv_activity` flag of `ManagedMDSocket`, the `pong_received` flag of
`MDSocket`, whether the socket has been closed, and ghost counters for
PINGs sent and `onProtocolViolation` invocations. -/
structure MDConn where
  cid : Nat
  name : List Nat
  recvActivity : Bool
  pongReceived : Bool
  closed : Bool
  pings : Nat
  violations : Nat
deriving Repr, DecidableEq

/-- Follow a reference: the object that identity `i` designates in the
store. -/
def storeGet : List MDConn → Nat → Option MDConn
  | [], _ => none
  | c :: t, i => if c.cid = i then some c else storeGet t i

/-- Mutate the object that identity `i` designates in place: every registry
name referencing it observes the update. -/
def storeApply (s : List MDConn) (i : Nat) (f : MDConn → MDConn) : List MDConn :=
  s.map fun c => if c.cid = i then f c else c

/-- `MDSocket.doPing`: clear `pong_received` and `sendPing('hai')`. -/
def doPing (c : MDConn) : MDConn := { c with pongReceived := false, pings := c.pings + 1 }

/-- The per-visit body of `MDServer.doPings`:
`if not c.pollRecvActivity(): c.doPing()` - the poll always resets the
flag. -/
def sweepConn (c : MDConn) : MDConn :=
  if c.recvActivity then { c with recvActivity := false }
  else doPing { c with recvActivity := false }

/-- `MDServer.doPings`: snapshots `client2sock` and visits each
(name, socket) item, polling and possibly pinging the referenced object -
a socket registered under several names is visited once per name, on the
shared object; then `DeferredCall(PING_TIMEOUT, self.checkPings)` is
scheduled and returning `True` re-arms the periodic event. -/
def doPings (reg : List (List Nat × Nat)) (store : List MDConn) :
    List MDConn × Rat × Bool :=
  (reg.foldl (fun st p => storeApply st p.2 sweepConn) store, PING_TIMEOUT, true)

/-- `del self.client2sock[name]` of `MDServer.delClient` (an absent name only
prints an error). -/
def dictDel : List (List Nat × Nat) → List Nat → List (List Nat × Nat)
  | [], _ => []
  | p :: t, k => if p.1 = k then t else p :: dictDel t k

/-- The protocol-violation path shared by `MDSocket.checkPing` and
`MDSocket.pong`: `manualViolation` runs `onProtocolViolation` (counted by
the ghost), whose `drop` removes the socket's `client_name` from the
registry and closes it. -/
def closeViolated (c : MDConn) : MDConn :=
  { c with violations := c.violations + 1, closed := true }

/-- One `c.checkPing()` call on the socket object `i` references: an answered
probe is left alone, an unanswered one takes `manualViolation`. -/
def checkPingConn (rs : List (List Nat × Nat) × List MDConn) (i : Nat) :
    List (List Nat × Nat) × List MDConn :=
  match storeGet rs.2 i with
  | none => rs
  | some c =>
    if c.pongReceived then rs
    else (dictDel rs.1 c.name, storeApply rs.2 i closeViolated)

/-- `MDServer.checkPings`: iterates a snapshot (`cc = dict(self.client2sock)`)
of the registry while each `drop` deletes from the live dict. -/
def checkPings (reg : List (List Nat × Nat)) (store : List MDConn) :
    List (List Nat × Nat) × List MDConn :=
  reg.foldl (fun rs p => checkPingConn rs p.2) (reg, store)

/-- A PONG frame arriving on socket object `i`: `onRecv` flags receive
activity, then `MDSocket.pong` - a duplicate PONG is a `manualViolation`
(the socket is dropped from the registry by its `client_name` and closed),
otherwise `pong_received` is set. -/
def receivePong (reg : List (List Nat × Nat)) (store : List MDConn) (i : Nat) :
    List (List Nat × Nat) × List MDConn :=
  match storeGet store i with
  | none => (reg, store)
  | some c =>
    if c.pongReceived then
      (dictDel reg c.name,
       storeApply store i fun x =>
         { x with recvActivity := true, violations := x.violations + 1, closed := true })
    else
      (reg, storeApply store i fun x =>
        { x with recvActivity := true, pongReceived := true })

/-- `client2sock` dictionary read. -/
def dictGet : List (List Nat × Nat) → List Nat → Option Nat
  | [], _ => none
  | p :: t, k => if p.1 = k then some p.2 else dictGet t k

/-- `client2sock[name] = source_socket`: replace the existing entry in place or
append a new one (Python dict assignment). -/
def dictSet : List (List Nat × Nat) → List Nat → Nat → List (List Nat × Nat)
  | [], k, v => [(k, v)]
  | p :: t, k, v => if p.1 = k then (k, v) :: t else p :: dictSet t k v

/-- Server-side state touched by a register-client message: the name-to-socket
registry, the per-socket `client_name`/`client_pass` attributes, the bytes
each socket's `send` was handed (ghost), the sockets the server closed
(ghost) and an escaped-exception flag. -/
structure ServerState where
  client2sock : List (List Nat × Nat)
  connNames : List (Nat × (List Nat × List Nat))
  outbox : List (Nat × List Nat)
  closedConns : List Nat
  raised : Bool
deriving Repr, DecidableEq

/-- Attribute write `self.client_name, self.client_pass = name, passwd`. -/
def setConnName : List (Nat × (List Nat × List Nat)) → Nat → List Nat × List Nat →
    List (Nat × (List Nat × List Nat))
  | [], i, v => [(i, v)]
  | p :: t, i, v => if p.1 = i then (i, v) :: t else p :: setConnName t i v

/-- `MDSocket.onRegClient(name, passwd)`: records the client name on the
socket, `muxer.regClient` maps the name to this socket in `client2sock`
(overwriting any existing entry), and `sendRegisterOk()` hands
`mdPackMessage(MD_REGISTER_OK, '')` to this socket's `send`. -/
def onRegClientServer (st : ServerState) (connId : Nat) (name passwd : List Nat) :
    ServerState :=
  let st1 := { st with connNames := setConnName st.connNames connId (name, passwd) }
  let st2 := { st1 with client2sock := dictSet st1.client2sock name connId }
  match mdPackMessage MD_REGISTER_OK [] with
  | .ok bytes => { st2 with outbox := st2.outbox ++ [(connId, bytes)] }
  | .error _ => { st2 with raised := true }

/-! ### Codec facts -/

theorem mdValidateMessage_eq_zero_iff : ∀ (m : List Nat),
    mdValidateMessage m = MDV_NO_VIOLATION ↔ ∀ b ∈ m, b ∈ md_charset
  | [] => by simp [mdValidateMessage]
  | b :: t => by
    by_cases h : b ∈ md_charset
    · simp [mdValidateMessage, h, mdValidateMessage_eq_zero_iff t]
    · simp [mdValidateMessage, h, MDV_INVALID_MESSAGE, MDV_NO_VIOLATION]

theorem unpack16_pack16 (n : Nat) (h : n ≤ 65535) : unpack16 (pack16 n) = n := by
  simp [pack16, unpack16]
  omega

theorem mdPackMessage_ok (ty : Nat) (message : List Nat) (hlen : message.length ≤ 196)
    (hcs : ∀ b ∈ message, b ∈ md_charset) (hty : ty ≤ 65535) :
    mdPackMessage ty message = .ok (pack16 (message.length + 4) ++ pack16 ty ++ message) := by
  unfold mdPackMessage
  rw [if_neg (by omega),
    if_neg (by simpa using (mdValidateMessage_eq_zero_iff message).mpr hcs),
    if_neg (by push_neg ; omega)]

/-- C7: `mdPackMessage(type, payload)` fails with `MDPackException` exactly for
a payload longer than 196 bytes or one with a byte outside the accepted
charset (and, failing, returns no bytes - the error carries none); on
success, including at the 196-byte boundary, it returns the 4-byte
big-endian header whose length field is `len(payload) + 4` and whose type
field is `type`, followed by the payload. -/
theorem mdPackMessage_spec (ty : Nat) (message : List Nat) :
    ((∃ s, mdPackMessage ty message = .error (.MDPackException s)) ↔
      (196 < message.length ∨ ∃ b ∈ message, b ∉ md_charset)) ∧
    (message.length ≤ 196 → (∀ b ∈ message, b ∈ md_charset) → ty ≤ 65535 →
      mdPackMessage ty message =
        .ok (pack16 (message.length + 4) ++ pack16 ty ++ message) ∧
      unpack16 ((pack16 (message.length + 4) ++ pack16 ty ++ message).take 2) =
        message.length + 4 ∧
      unpack16 (((pack16 (message.length + 4) ++ pack16 ty ++ message).drop 2).take 2) = ty ∧
      (pack16 (message.length + 4) ++ pack16 ty ++ message).drop 4 = message) := by
  constructor
  · constructor
    · rintro ⟨str, hs⟩
      unfold mdPackMessage at hs
      by_cases h1 : 196 < message.length
      · exact Or.inl h1
      · rw [if_neg h1] at hs
        by_cases h2 : mdValidateMessage message ≠ MDV_NO_VIOLATION
        · right
          by_contra hall
          push_neg at hall
          exact h2 ((mdValidateMessage_eq_zero_iff message).mpr hall)
        · rw [if_neg h2] at hs
          split at hs
          · exact absurd hs (by simp)
          · exact absurd hs (by simp)
    · intro h
      rcases h with h1 | ⟨b, hb, hbc⟩
      · exact ⟨"Message exceeds 196 characters.", by unfold mdPackMessage ; rw [if_pos h1]⟩
      · by_cases h1 : 196 < message.length
        · exact ⟨"Message exceeds 196 characters.", by unfold mdPackMessage ; rw [if_pos h1]⟩
        · refine ⟨"Message contains non-printable characters.", ?_⟩
          unfold mdPackMessage
          rw [if_neg h1, if_pos ?_]
          intro hv
          exact hbc ((mdValidateMessage_eq_zero_iff message).mp hv b hb)
  · intro hlen hcs hty
    refine ⟨mdPackMessage_ok ty message hlen hcs hty, ?_, ?_, ?_⟩
    · simp only [pack16, List.cons_append, List.nil_append, List.take_succ_cons,
        List.take_zero]
      simp [unpack16]
      omega
    · simp only [pack16, List.cons_append, List.nil_append, List.drop_succ_cons,
        List.drop_zero, List.take_succ_cons, List.take_zero]
      simp [unpack16]
      omega
    · simp [pack16]

/-- C7 witness: the 196-byte boundary payload packs successfully and
round-trips its header fields. -/
theorem mdPackMessage_spec_witness :
    ((List.replicate 196 (97 : Nat)).length ≤ 196 ∧
      (∀ b ∈ List.replicate 196 (97 : Nat), b ∈ md_charset) ∧ MD_PING ≤ 65535) ∧
    (mdPackMessage MD_PING (List.replicate 196 (97 : Nat)) =
        .ok (pack16 ((List.replicate 196 (97 : Nat)).length + 4) ++ pack16 MD_PING ++
          List.replicate 196 (97 : Nat)) ∧
      unpack16 ((pack16 ((List.replicate 196 (97 : Nat)).length + 4) ++ pack16 MD_PING ++
          List.replicate 196 (97 : Nat)).take 2) = (List.replicate 196 (97 : Nat)).length + 4 ∧
      unpack16 (((pack16 ((List.replicate 196 (97 : Nat)).length + 4) ++ pack16 MD_PING ++
          List.replicate 196 (97 : Nat)).drop 2).take 2) = MD_PING ∧
      (pack16 ((List.replicate 196 (97 : Nat)).length + 4) ++ pack16 MD_PING ++
          List.replicate 196 (97 : Nat)).drop 4 = List.replicate 196 (97 : Nat)) := by
  have hcs : ∀ b ∈ List.replicate 196 (97 : Nat), b ∈ md_charset := by
    intro b hb
    rw [List.eq_of_mem_replicate hb]
    decide
  exact ⟨⟨by simp, hcs, by decide⟩,
    (mdPackMessage_spec MD_PING (List.replicate 196 (97 : Nat))).2 (by simp) hcs (by decide)⟩

/-- C2 (code bug): a complete, charset-valid frame of the command-routed
register-client type 100 with an empty (or all-whitespace) payload does
not take the protocol-violation path: `handleSendMessage` evaluates the
undefined global `DCPV_INVALID_ARGUMENTS`, so a `NameError` escapes - the
violation hook is never invoked and the connection is not closed. -/
theorem emptyCommandPayload_NameError :
    ((onRecv MDState.init [0, 4, 0, 100]).err =
        some (PyErr.nameError "DCPV_INVALID_ARGUMENTS") ∧
      (onRecv MDState.init [0, 4, 0, 100]).violations = [] ∧
      (onRecv MDState.init [0, 4, 0, 100]).connected = true) ∧
    ((onRecv MDState.init [0, 7, 0, 100, 32, 32, 32]).err =
        some (PyErr.nameError "DCPV_INVALID_ARGUMENTS") ∧
      (onRecv MDState.init [0, 7, 0, 100, 32, 32, 32]).violations = [] ∧
      (onRecv MDState.init [0, 7, 0, 100, 32, 32, 32]).connected = true) := by
  exact ⟨⟨rfl, rfl, rfl⟩, ⟨rfl, rfl, rfl⟩⟩

/-! ### C9: send on a non-connected socket -/

/-- C9: `send(data)` on a socket in any state other than `CONNECTED` returns
failure and changes nothing: same outbound buffer, no bytes handed to the
OS, no write-interest registered. -/
theorem send_not_connected_noop (cr : ConnectRes) (os : List SendRes) (selfId : Nat)
    (ctx : MSockCtx) (data : List Nat) (h : ctx.state ≠ SockState.CONNECTED) :
    msSend cr os selfId ctx data = (ctx, false) ∧
    (msSend cr os selfId ctx data).1.wbuf = ctx.wbuf ∧
    (msSend cr os selfId ctx data).1.transmitted = ctx.transmitted ∧
    (msSend cr os selfId ctx data).1.writers = ctx.writers := by
  have hres : msSend cr os selfId ctx data = (ctx, false) := by
    unfold msSend
    rw [if_pos h]
  exact ⟨hres, by rw [hres], by rw [hres], by rw [hres]⟩

/-- C9 witness: a closed socket with a pending buffer refuses a send and stays
untouched. -/
theorem send_not_connected_noop_witness :
    (({ state := SockState.CLOSED, wbuf := [1, 2], lwb := false, readers := [],
        writers := [7], transmitted := [], disconnects := 0, refuses := 0,
        connects := 0, raised := false } : MSockCtx).state ≠ SockState.CONNECTED) ∧
    (msSend ConnectRes.ok [SendRes.sent 2] 5
        { state := SockState.CLOSED, wbuf := [1, 2], lwb := false, readers := [],
          writers := [7], transmitted := [], disconnects := 0, refuses := 0,
          connects := 0, raised := false } [3, 4] =
      ({ state := SockState.CLOSED, wbuf := [1, 2], lwb := false, readers := [],
          writers := [7], transmitted := [], disconnects := 0, refuses := 0,
          connects := 0, raised := false }, false)) :=
  ⟨by decide,
    (send_not_connected_noop ConnectRes.ok [SendRes.sent 2] 5 _ [3, 4] (by decide)).1⟩

/-! ### C8: reactor deadlock -/

/-- C8: reaching the wait step with both interest sets empty and an empty
event queue raises `Deadlock` instead of blocking; in particular a freshly
initialised multiplexer does. -/
theorem startMultiplex_deadlock (m : SocketMultiplexer) (hr : m.reads = [])
    (hw : m.writes = []) (he : m.eq.events = []) :
    (startMultiplexFirst m).1 = ReactorStep.deadlock := by
  rcases m with ⟨kr, rds, wrs, ⟨evs, ih, el, sc, ca⟩⟩
  have hr2 : rds = [] := hr
  have hw2 : wrs = [] := hw
  have he2 : evs = [] := he
  subst hr2
  subst hw2
  subst he2
  cases ih <;>
  · unfold startMultiplexFirst DeadEventQueue.nextEventTicks
    simp [pyHeapify, heapifyGo]

/-- C8 witness: a reactor started with no registered connections and no
scheduled events. -/
theorem startMultiplex_deadlock_witness :
    (SocketMultiplexer.init.reads = [] ∧ SocketMultiplexer.init.writes = [] ∧
      SocketMultiplexer.init.eq.events = []) ∧
    (startMultiplexFirst SocketMultiplexer.init).1 = ReactorStep.deadlock :=
  ⟨⟨rfl, rfl, rfl⟩, startMultiplex_deadlock SocketMultiplexer.init rfl rfl rfl⟩

/-! ### C3: cancelEvent and `__eq__` aliasing by delay -/

theorem countP_le_one_eraseP (f : DeadEvent → Bool) : ∀ (l : List DeadEvent),
    l.countP f ≤ 1 → ∀ x ∈ l.eraseP f, f x = false
  | [], _, x, hx => by simp at hx
  | a :: t, h, x, hx => by
    by_cases ha : f a
    · rw [List.eraseP_cons_of_pos ha] at hx
      rw [List.countP_cons, if_pos ha] at h
      have ht : t.countP f = 0 := by omega
      simpa using List.countP_eq_zero.mp ht x hx
    · rw [List.eraseP_cons_of_neg (by simpa using ha)] at hx
      rcases List.mem_cons.mp hx with h1 | h2
      · subst h1
        simpa using ha
      · refine countP_le_one_eraseP f t ?_ x h2
        rw [List.countP_cons] at h
        omega

theorem cancelEvent_no_match (q : DeadEventQueue) (ev : DeadEvent)
    (helap : q.elapsing = false)
    (hno : q.events.any (fun x => x.delay == ev.delay) = false) :
    q.cancelEvent ev = q := by
  unfold DeadEventQueue.cancelEvent
  rw [if_neg (by simp [helap]), if_neg (by simp [hno])]

/-- C3 counterexample: `cancelEvent` on an event that was never scheduled (so
is not in the live collection) is not a no-op when some live event has the
same remaining delay - `DeadEvent.__eq__` compares delays only, so
`list.remove` deletes the delay-equal live event. -/
theorem cancelEvent_nonmember_not_noop :
    (⟨1, 5, 5, false, false, []⟩ : DeadEvent) ∉
      ({ events := [⟨0, 5, 5, false, false, []⟩], isheap := true, elapsing := false,
          scheds := [], cancels := [] } : DeadEventQueue).events ∧
    ({ events := [⟨0, 5, 5, false, false, []⟩], isheap := true, elapsing := false,
        scheds := [], cancels := [] } : DeadEventQueue).elapsing = false ∧
    (({ events := [⟨0, 5, 5, false, false, []⟩], isheap := true, elapsing := false,
        scheds := [], cancels := [] } : DeadEventQueue).cancelEvent
          ⟨1, 5, 5, false, false, []⟩).events ≠
      ({ events := [⟨0, 5, 5, false, false, []⟩], isheap := true, elapsing := false,
          scheds := [], cancels := [] } : DeadEventQueue).events := by
  refine ⟨by decide, rfl, by decide⟩

/-- C3 (amended): outside an advance, `cancelEvent(e)` does not raise, and it
is a no-op whenever no live event compares equal to `e` - that is, shares
`e`'s remaining delay (`DeadEvent.__eq__`); in particular cancelling twice
equals cancelling once whenever at most one live event carries that
delay. -/
theorem cancelEvent_noop_unless_delay_aliases (q : DeadEventQueue) (ev : DeadEvent)
    (helap : q.elapsing = false) :
    ((∀ x ∈ q.events, x.delay ≠ ev.delay) → q.cancelEvent ev = q) ∧
    (q.events.countP (fun x => x.delay == ev.delay) ≤ 1 →
      (q.cancelEvent ev).cancelEvent ev = q.cancelEvent ev) := by
  constructor
  · intro hno
    refine cancelEvent_no_match q ev helap ?_
    rw [List.any_eq_false]
    intro x hx
    simpa using hno x hx
  · intro hcount
    by_cases hany : q.events.any (fun x => x.delay == ev.delay) = true
    · have hfirst : q.cancelEvent ev =
          { q with events := q.events.eraseP (fun x => x.delay == ev.delay),
                   isheap := (q.events.eraseP (fun x => x.delay == ev.delay)).isEmpty } := by
        unfold DeadEventQueue.cancelEvent
        rw [if_neg (by simp [helap]), if_pos hany]
      rw [hfirst]
      refine cancelEvent_no_match _ ev helap ?_
      rw [List.any_eq_false]
      intro x hx
      simpa using countP_le_one_eraseP _ q.events hcount x hx
    · have hno := cancelEvent_no_match q ev helap (by simpa using hany)
      rw [hno, hno]

/-- C3 witness: cancelling an event whose delay matches no live event, twice,
leaves the queue exactly as it was. -/
theorem cancelEvent_noop_witness :
    ({ events := [⟨0, 3, 3, false, false, []⟩], isheap := true, elapsing := false,
        scheds := [], cancels := [] } : DeadEventQueue).elapsing = false ∧
    ({ events := [⟨0, 3, 3, false, false, []⟩], isheap := true, elapsing := false,
        scheds := [], cancels := [] } : DeadEventQueue).cancelEvent
        ⟨1, 7, 7, false, false, []⟩ =
      { events := [⟨0, 3, 3, false, false, []⟩], isheap := true, elapsing := false,
        scheds := [], cancels := [] } ∧
    (({ events := [⟨0, 3, 3, false, false, []⟩], isheap := true, elapsing := false,
        scheds := [], cancels := [] } : DeadEventQueue).cancelEvent
          ⟨1, 7, 7, false, false, []⟩).cancelEvent ⟨1, 7, 7, false, false, []⟩ =
      ({ events := [⟨0, 3, 3, false, false, []⟩], isheap := true, elapsing := false,
          scheds := [], cancels := [] } : DeadEventQueue).cancelEvent
        ⟨1, 7, 7, false, false, []⟩ :=
  ⟨rfl,
    (cancelEvent_noop_unless_delay_aliases _ _ rfl).1 (by decide),
    (cancelEvent_noop_unless_delay_aliases _ _ rfl).2 (by decide)⟩

/-! ### C10: register-client overwrites silently -/

theorem dictGet_dictSet_self : ∀ (m : List (List Nat × Nat)) (k : List Nat) (v : Nat),
    dictGet (dictSet m k v) k = some v
  | [], k, v => by simp [dictSet, dictGet]
  | p :: t, k, v => by
    by_cases h : p.1 = k
    · simp [dictSet, dictGet, h]
    · simp [dictSet, dictGet, h, dictGet_dictSet_self t k v]

theorem dictGet_dictSet_ne : ∀ (m : List (List Nat × Nat)) (k : List Nat) (v : Nat)
    (k2 : List Nat), k2 ≠ k → dictGet (dictSet m k v) k2 = dictGet m k2
  | [], k, v, k2, h => by simp [dictSet, dictGet, Ne.symm h]
  | p :: t, k, v, k2, h => by
    by_cases hp : p.1 = k
    · simp [dictSet, dictGet, hp, Ne.symm h]
    · simp [dictSet, dictGet, hp, dictGet_dictSet_ne t k v k2 h]

/-- C10: a register-client message maps the requested name to the requesting
connection and replies register-ok even when the name is already
registered: the entry is silently overwritten, no other registry entry
changes, the previous owner is neither sent anything nor closed, and no
register-fail is produced - the single emitted frame is the type-110
register-ok to the requester. -/
theorem onRegClient_overwrites (st : ServerState) (conn oldConn : Nat)
    (name passwd : List Nat) (_hold : dictGet st.client2sock name = some oldConn)
    (hne : oldConn ≠ conn) :
    dictGet (onRegClientServer st conn name passwd).client2sock name = some conn ∧
    (∀ k, k ≠ name →
      dictGet (onRegClientServer st conn name passwd).client2sock k =
        dictGet st.client2sock k) ∧
    (onRegClientServer st conn name passwd).closedConns = st.closedConns ∧
    (onRegClientServer st conn name passwd).outbox = st.outbox ++ [(conn, [0, 4, 0, 110])] ∧
    conn ≠ oldConn ∧
    unpack16 (([0, 4, 0, 110].drop 2).take 2) = MD_REGISTER_OK ∧
    MD_REGISTER_OK ≠ MD_REGISTER_FAIL ∧
    (onRegClientServer st conn name passwd).raised = st.raised := by
  have hmsg : mdPackMessage MD_REGISTER_OK [] = .ok [0, 4, 0, 110] := rfl
  have hred : onRegClientServer st conn name passwd =
      { st with connNames := setConnName st.connNames conn (name, passwd),
                client2sock := dictSet st.client2sock name conn,
                outbox := st.outbox ++ [(conn, [0, 4, 0, 110])] } := by
    unfold onRegClientServer
    rw [hmsg]
  rw [hred]
  refine ⟨dictGet_dictSet_self _ _ _, ?_, rfl, rfl, Ne.symm hne, by decide, by decide, rfl⟩
  intro k hk
  exact dictGet_dictSet_ne _ _ _ _ hk

/-- C10 witness: overwriting an existing registration. -/
theorem onRegClient_overwrites_witness :
    (dictGet (⟨[([110], 3)], [], [], [], false⟩ : ServerState).client2sock [110] = some 3 ∧
      (3 : Nat) ≠ 9) ∧
    dictGet (onRegClientServer (⟨[([110], 3)], [], [], [], false⟩ : ServerState)
        9 [110] [112]).client2sock [110] = some 9 :=
  ⟨⟨by decide, by decide⟩,
    (onRegClient_overwrites (⟨[([110], 3)], [], [], [], false⟩ : ServerState)
      9 3 [110] [112] (by decide) (by decide)).1⟩

/-! ### C6: keep-alive monitor -/

theorem storeGet_mem : ∀ (s : List MDConn) (i : Nat) (c : MDConn),
    storeGet s i = some c → c ∈ s ∧ c.cid = i
  | [], _, _, h => by simp [storeGet] at h
  | a :: t, i, c, h => by
    by_cases ha : a.cid = i
    · have hc : a = c := by simpa [storeGet, ha] using h
      subst hc
      exact ⟨List.mem_cons_self a t, ha⟩
    · have ht : storeGet t i = some c := by simpa [storeGet, ha] using h
      obtain ⟨hm, hc⟩ := storeGet_mem t i c ht
      exact ⟨List.mem_cons_of_mem a hm, hc⟩

theorem storeGet_apply_ne : ∀ (s : List MDConn) (j i : Nat) (f : MDConn → MDConn),
    (∀ x, (f x).cid = x.cid) → j ≠ i →
    storeGet (storeApply s j f) i = storeGet s i
  | [], _, _, _, _, _ => rfl
  | a :: t, j, i, f, hf, hij => by
    by_cases ha : a.cid = j
    · have h1 : ¬ (f a).cid = i := by
        rw [hf a, ha]
        exact hij
      have h2 : ¬ a.cid = i := by
        rw [ha]
        exact hij
      simp only [storeApply, List.map_cons, storeGet]
      rw [if_pos ha, if_neg h1, if_neg h2]
      exact storeGet_apply_ne t j i f hf hij
    · by_cases hi : a.cid = i
      · simp only [storeApply, List.map_cons, if_neg ha, storeGet, if_pos hi]
      · simp only [storeApply, List.map_cons, if_neg ha, storeGet, if_neg hi]
        exact storeGet_apply_ne t j i f hf hij

theorem storeGet_apply_self : ∀ (s : List MDConn) (i : Nat) (c : MDConn)
    (f : MDConn → MDConn), (∀ x, (f x).cid = x.cid) →
    storeGet s i = some c →
    storeGet (storeApply s i f) i = some (f c)
  | [], _, _, _, _, h => by simp [storeGet] at h
  | a :: t, i, c, f, hf, h => by
    by_cases ha : a.cid = i
    · have hc : a = c := by simpa [storeGet, ha] using h
      subst hc
      simp [storeApply, storeGet, hf a, ha]
    · have ht : storeGet t i = some c := by simpa [storeGet, ha] using h
      simp only [storeApply, List.map_cons, if_neg ha, storeGet, if_neg ha]
      exact storeGet_apply_self t i c f hf ht

theorem mem_storeApply (s : List MDConn) (i : Nat) (f : MDConn → MDConn)
    (c : MDConn) (hc : c ∈ storeApply s i f) : ∃ c0 ∈ s, c = c0 ∨ c = f c0 := by
  obtain ⟨c0, hc0, he⟩ := List.mem_map.mp hc
  by_cases h : c0.cid = i
  · exact ⟨c0, hc0, Or.inr (by rw [← he] ; simp [h])⟩
  · exact ⟨c0, hc0, Or.inl (by rw [← he] ; simp [h])⟩

theorem sweepConn_cid (c : MDConn) : (sweepConn c).cid = c.cid := by
  cases h : c.recvActivity <;> simp [sweepConn, doPing, h]

theorem dictGet_eq_none_of_not_mem : ∀ (r : List (List Nat × Nat)) (k : List Nat),
    k ∉ r.map Prod.fst → dictGet r k = none
  | [], _, _ => rfl
  | p :: t, k, h => by
    simp only [List.map_cons, List.mem_cons, not_or] at h
    have h1 : ¬ p.1 = k := fun he => h.1 he.symm
    simp only [dictGet, if_neg h1]
    exact dictGet_eq_none_of_not_mem t k h.2

theorem dictGet_of_mem_nodup : ∀ (r : List (List Nat × Nat)) (p : List Nat × Nat),
    (r.map Prod.fst).Nodup → p ∈ r → dictGet r p.1 = some p.2
  | a :: t, p, hnd, hp => by
    simp only [List.map_cons, List.nodup_cons] at hnd
    rcases List.mem_cons.mp hp with h1 | h2
    · subst h1
      simp [dictGet]
    · have h1 : ¬ a.1 = p.1 := by
        intro he
        apply hnd.1
        rw [he]
        exact List.mem_map_of_mem Prod.fst h2
      simp only [dictGet, if_neg h1]
      exact dictGet_of_mem_nodup t p hnd.2 h2

theorem dictGet_dictDel_ne : ∀ (r : List (List Nat × Nat)) (k k2 : List Nat),
    k2 ≠ k → dictGet (dictDel r k) k2 = dictGet r k2
  | [], _, _, _ => rfl
  | p :: t, k, k2, h => by
    by_cases hp : p.1 = k
    · have h1 : ¬ p.1 = k2 := by
        rw [hp]
        exact fun he => h he.symm
      simp only [dictDel, if_pos hp, dictGet, if_neg h1]
    · by_cases h2 : p.1 = k2
      · simp only [dictDel, if_neg hp, dictGet, if_pos h2]
      · simp only [dictDel, if_neg hp, dictGet, if_neg h2]
        exact dictGet_dictDel_ne t k k2 h

theorem dictDel_map_fst_sublist : ∀ (r : List (List Nat × Nat)) (k : List Nat),
    ((dictDel r k).map Prod.fst).Sublist (r.map Prod.fst)
  | [], _ => List.Sublist.refl _
  | p :: t, k => by
    by_cases hp : p.1 = k
    · simp only [dictDel, if_pos hp, List.map_cons]
      exact List.sublist_cons_self _ _
    · simp only [dictDel, if_neg hp, List.map_cons]
      exact List.Sublist.cons₂ _ (dictDel_map_fst_sublist t k)

theorem dictGet_dictDel_self : ∀ (r : List (List Nat × Nat)) (k : List Nat),
    (r.map Prod.fst).Nodup → dictGet (dictDel r k) k = none
  | [], _, _ => rfl
  | p :: t, k, hnd => by
    simp only [List.map_cons, List.nodup_cons] at hnd
    by_cases hp : p.1 = k
    · simp only [dictDel, if_pos hp]
      exact dictGet_eq_none_of_not_mem t k (by rw [← hp] ; exact hnd.1)
    · simp only [dictDel, if_neg hp, dictGet, if_neg hp]
      exact dictGet_dictDel_self t k hnd.2

theorem dictGet_dictDel_of_none : ∀ (r : List (List Nat × Nat)) (k k2 : List Nat),
    dictGet r k = none → dictGet (dictDel r k2) k = none
  | [], _, _, _ => rfl
  | p :: t, k, k2, h => by
    by_cases hp1 : p.1 = k
    · simp [dictGet, hp1] at h
    · have ht : dictGet t k = none := by simpa [dictGet, hp1] using h
      by_cases hp2 : p.1 = k2
      · simp only [dictDel, if_pos hp2]
        exact ht
      · simp only [dictDel, if_neg hp2, dictGet, if_neg hp1]
        exact dictGet_dictDel_of_none t k k2 ht

theorem fst_inj_of_nodup (r : List (List Nat × Nat))
    (h : (r.map Prod.fst).Nodup) :
    ∀ a ∈ r, ∀ b ∈ r, a.1 = b.1 → a = b := by
  intro a ha b hb hab
  exact List.inj_on_of_nodup_map h ha hb hab

theorem foldl_sweep_get_notin :
    ∀ (todo : List (List Nat × Nat)) (s : List MDConn) (i : Nat),
      (∀ q ∈ todo, q.2 ≠ i) →
      storeGet (todo.foldl (fun st p => storeApply st p.2 sweepConn) s) i =
        storeGet s i
  | [], _, _, _ => rfl
  | q :: t, s, i, h => by
    simp only [List.foldl_cons]
    rw [foldl_sweep_get_notin t _ i (fun q2 hq2 => h q2 (List.mem_cons_of_mem q hq2))]
    exact storeGet_apply_ne s q.2 i sweepConn sweepConn_cid (h q (List.mem_cons_self q t))

theorem foldl_sweep_get_once :
    ∀ (todo : List (List Nat × Nat)) (s : List MDConn) (i : Nat) (c : MDConn),
      (todo.map Prod.snd).Nodup → i ∈ todo.map Prod.snd →
      storeGet s i = some c →
      storeGet (todo.foldl (fun st p => storeApply st p.2 sweepConn) s) i =
        some (sweepConn c)
  | [], _, _, _, _, hmem, _ => by simp at hmem
  | q :: t, s, i, c, hnd, hmem, hget => by
    simp only [List.map_cons, List.nodup_cons] at hnd
    simp only [List.foldl_cons]
    by_cases hq : q.2 = i
    · have hnot : ∀ q2 ∈ t, q2.2 ≠ i := by
        intro q2 hq2 he
        apply hnd.1
        rw [hq, ← he]
        exact List.mem_map_of_mem Prod.snd hq2
      rw [foldl_sweep_get_notin t _ i hnot, hq]
      exact storeGet_apply_self s i c sweepConn sweepConn_cid hget
    · have hmem2 : i ∈ t.map Prod.snd := by
        rcases List.mem_cons.mp hmem with h1 | h1
        · exact absurd h1.symm hq
        · exact h1
      exact foldl_sweep_get_once t _ i c hnd.2 hmem2
        (by rw [storeGet_apply_ne s q.2 i sweepConn sweepConn_cid hq] ; exact hget)

theorem foldl_check_preserve :
    ∀ (todo : List (List Nat × Nat)) (r : List (List Nat × Nat)) (s : List MDConn)
      (k : List Nat) (i : Nat) (c : MDConn),
      dictGet r k = none → storeGet s i = some c →
      (∀ q ∈ todo, q.2 ≠ i) →
      dictGet (todo.foldl (fun rs p => checkPingConn rs p.2) (r, s)).1 k = none ∧
      storeGet (todo.foldl (fun rs p => checkPingConn rs p.2) (r, s)).2 i = some c
  | [], _, _, _, _, _, hr, hs, _ => ⟨hr, hs⟩
  | q :: t, r, s, k, i, c, hr, hs, h => by
    simp only [List.foldl_cons]
    have hqi : q.2 ≠ i := h q (List.mem_cons_self q t)
    have hrest : ∀ q2 ∈ t, q2.2 ≠ i := fun q2 hq2 => h q2 (List.mem_cons_of_mem q hq2)
    cases hv : storeGet s q.2 with
    | none =>
      have he : checkPingConn (r, s) q.2 = (r, s) := by simp [checkPingConn, hv]
      rw [he]
      exact foldl_check_preserve t r s k i c hr hs hrest
    | some cq =>
      by_cases hcp : cq.pongReceived
      · have he : checkPingConn (r, s) q.2 = (r, s) := by simp [checkPingConn, hv, hcp]
        rw [he]
        exact foldl_check_preserve t r s k i c hr hs hrest
      · have he : checkPingConn (r, s) q.2 =
            (dictDel r cq.name, storeApply s q.2 closeViolated) := by
          simp [checkPingConn, hv, hcp]
        rw [he]
        exact foldl_check_preserve t _ _ k i c
          (dictGet_dictDel_of_none r k cq.name hr)
          (by rw [storeGet_apply_ne s q.2 i closeViolated (fun x => rfl) hqi] ; exact hs)
          hrest

theorem foldl_check_survive :
    ∀ (todo : List (List Nat × Nat)) (r : List (List Nat × Nat)) (s : List MDConn)
      (k : List Nat) (i : Nat) (c : MDConn),
      storeGet s i = some c → c.pongReceived = true →
      dictGet r k = some i →
      (∀ q ∈ todo, q.2 ≠ i → ∀ cq ∈ s, cq.cid = q.2 → cq.name ≠ k) →
      dictGet (todo.foldl (fun rs p => checkPingConn rs p.2) (r, s)).1 k = some i ∧
      storeGet (todo.foldl (fun rs p => checkPingConn rs p.2) (r, s)).2 i = some c
  | [], _, _, _, _, _, hs, _, hr, _ => ⟨hr, hs⟩
  | q :: t, r, s, k, i, c, hs, hp, hr, hname => by
    simp only [List.foldl_cons]
    have hnrest : ∀ q2 ∈ t, q2.2 ≠ i → ∀ cq ∈ s, cq.cid = q2.2 → cq.name ≠ k :=
      fun q2 hq2 => hname q2 (List.mem_cons_of_mem q hq2)
    by_cases hqi : q.2 = i
    · have he : checkPingConn (r, s) q.2 = (r, s) := by
        rw [hqi]
        simp [checkPingConn, hs, hp]
      rw [he]
      exact foldl_check_survive t r s k i c hs hp hr hnrest
    · cases hv : storeGet s q.2 with
      | none =>
        have he : checkPingConn (r, s) q.2 = (r, s) := by simp [checkPingConn, hv]
        rw [he]
        exact foldl_check_survive t r s k i c hs hp hr hnrest
      | some cq =>
        by_cases hcp : cq.pongReceived
        · have he : checkPingConn (r, s) q.2 = (r, s) := by
            simp [checkPingConn, hv, hcp]
          rw [he]
          exact foldl_check_survive t r s k i c hs hp hr hnrest
        · have he : checkPingConn (r, s) q.2 =
              (dictDel r cq.name, storeApply s q.2 closeViolated) := by
            simp [checkPingConn, hv, hcp]
          rw [he]
          obtain ⟨hcqmem, hcqcid⟩ := storeGet_mem s q.2 cq hv
          have hnk : cq.name ≠ k :=
            hname q (List.mem_cons_self q t) hqi cq hcqmem hcqcid
          refine foldl_check_survive t _ _ k i c ?_ hp ?_ ?_
          · rw [storeGet_apply_ne s q.2 i closeViolated (fun x => rfl) hqi]
            exact hs
          · rw [dictGet_dictDel_ne r cq.name k (Ne.symm hnk)]
            exact hr
          · intro q2 hq2 hq2i cq2 hcq2 hcid2
            obtain ⟨c0, hc0, hc0e⟩ := mem_storeApply s q.2 closeViolated cq2 hcq2
            have hcid0 : c0.cid = q2.2 := by
              rcases hc0e with he2 | he2
              · rw [← he2]
                exact hcid2
              · rw [he2] at hcid2
                exact hcid2
            have hname0 : cq2.name = c0.name := by
              rcases hc0e with he2 | he2
              · rw [he2]
              · rw [he2]
                rfl
            rw [hname0]
            exact hnrest q2 hq2 hq2i c0 hc0 hcid0

theorem foldl_check_drop :
    ∀ (todo : List (List Nat × Nat)) (r : List (List Nat × Nat)) (s : List MDConn)
      (i : Nat) (c : MDConn),
      storeGet s i = some c → c.pongReceived = false →
      (r.map Prod.fst).Nodup →
      (todo.map Prod.snd).Nodup → i ∈ todo.map Prod.snd →
      dictGet (todo.foldl (fun rs p => checkPingConn rs p.2) (r, s)).1 c.name = none ∧
      storeGet (todo.foldl (fun rs p => checkPingConn rs p.2) (r, s)).2 i =
        some (closeViolated c)
  | [], _, _, _, _, _, _, _, _, hmem => by simp at hmem
  | q :: t, r, s, i, c, hs, hp, hrnd, hnd, hmem => by
    simp only [List.map_cons, List.nodup_cons] at hnd
    simp only [List.foldl_cons]
    by_cases hqi : q.2 = i
    · have he : checkPingConn (r, s) q.2 =
          (dictDel r c.name, storeApply s i closeViolated) := by
        rw [hqi]
        simp [checkPingConn, hs, hp]
      rw [he]
      have hnot : ∀ q2 ∈ t, q2.2 ≠ i := by
        intro q2 hq2 he2
        apply hnd.1
        rw [hqi, ← he2]
        exact List.mem_map_of_mem Prod.snd hq2
      exact foldl_check_preserve t _ _ c.name i (closeViolated c)
        (dictGet_dictDel_self r c.name hrnd)
        (storeGet_apply_self s i c closeViolated (fun x => rfl) hs)
        hnot
    · have hmem2 : i ∈ t.map Prod.snd := by
        rcases List.mem_cons.mp hmem with h1 | h1
        · exact absurd h1.symm hqi
        · exact h1
      cases hv : storeGet s q.2 with
      | none =>
        have he : checkPingConn (r, s) q.2 = (r, s) := by simp [checkPingConn, hv]
        rw [he]
        exact foldl_check_drop t r s i c hs hp hrnd hnd.2 hmem2
      | some cq =>
        by_cases hcp : cq.pongReceived
        · have he : checkPingConn (r, s) q.2 = (r, s) := by
            simp [checkPingConn, hv, hcp]
          rw [he]
          exact foldl_check_drop t r s i c hs hp hrnd hnd.2 hmem2
        · have he : checkPingConn (r, s) q.2 =
              (dictDel r cq.name, storeApply s q.2 closeViolated) := by
            simp [checkPingConn, hv, hcp]
          rw [he]
          exact foldl_check_drop t _ _ i c
            (by rw [storeGet_apply_ne s q.2 i closeViolated (fun x => rfl) hqi] ; exact hs)
            hp
            (List.Nodup.sublist (dictDel_map_fst_sublist r cq.name) hrnd)
            hnd.2 hmem2

/-- C6 counterexample: the claim fails when one socket is registered under
two names - a state two ordinary register-client messages produce, as the
`dictSet` conjunct shows.  At a sweep the shared activity flag is polled
once per name, so the idle socket is sent two PINGs rather than exactly
one; and when the conforming peer answers each PING, its second in-time
PONG is taken for a duplicate-PONG violation: the socket ends closed with
a violation recorded and its last-registered name dropped. -/
theorem keepalive_double_ping :
    dictSet (dictSet [] [110] 0) [111] 0 = [([110], 0), ([111], 0)] ∧
    (doPings [([110], 0), ([111], 0)]
        [⟨0, [111], false, true, false, 0, 0⟩]).1 =
      [⟨0, [111], false, false, false, 2, 0⟩] ∧
    (receivePong
        (receivePong [([110], 0), ([111], 0)]
          [⟨0, [111], false, false, false, 2, 0⟩] 0).1
        (receivePong [([110], 0), ([111], 0)]
          [⟨0, [111], false, false, false, 2, 0⟩] 0).2 0).2 =
      [⟨0, [111], true, true, true, 2, 1⟩] ∧
    (receivePong
        (receivePong [([110], 0), ([111], 0)]
          [⟨0, [111], false, false, false, 2, 0⟩] 0).1
        (receivePong [([110], 0), ([111], 0)]
          [⟨0, [111], false, false, false, 2, 0⟩] 0).2 0).1 =
      [([110], 0)] := by
  decide

/-- C6 (amended: provided no socket is registered under more than one name,
i.e. the `client2sock` values are pairwise distinct): at a ping sweep the
answer check is scheduled `PING_TIMEOUT` later and the periodic event
re-arms; every registered connection without receive activity is sent
exactly one PING and marked awaiting-pong, and every one with recent
activity is sent none; a PONG arriving before the check leaves the
registry untouched and marks the probe answered (and counts as receive
activity); at the check every connection still awaiting its PONG is
closed through the protocol-violation path and its name leaves the
registry, while every answered one stays registered, un-closed and
unchanged, eligible for the next sweep. -/
theorem keepalive_spec (reg : List (List Nat × Nat)) (store : List MDConn)
    (hkeys : (reg.map Prod.fst).Nodup)
    (hvals : (reg.map Prod.snd).Nodup)
    (hnames : ∀ q ∈ reg, ∀ c ∈ store, c.cid = q.2 → c.name = q.1) :
    (doPings reg store).2.1 = PING_TIMEOUT ∧
    (doPings reg store).2.2 = true ∧
    (∀ p ∈ reg, ∀ c, storeGet store p.2 = some c → c.recvActivity = false →
      storeGet (doPings reg store).1 p.2 =
        some { c with recvActivity := false, pongReceived := false,
                      pings := c.pings + 1 }) ∧
    (∀ p ∈ reg, ∀ c, storeGet store p.2 = some c → c.recvActivity = true →
      storeGet (doPings reg store).1 p.2 = some { c with recvActivity := false }) ∧
    (∀ i c, storeGet store i = some c → c.pongReceived = false →
      (receivePong reg store i).1 = reg ∧
      storeGet (receivePong reg store i).2 i =
        some { c with recvActivity := true, pongReceived := true }) ∧
    (∀ p ∈ reg, ∀ c, storeGet store p.2 = some c → c.pongReceived = false →
      dictGet (checkPings reg store).1 p.1 = none ∧
      storeGet (checkPings reg store).2 p.2 =
        some { c with violations := c.violations + 1, closed := true }) ∧
    (∀ p ∈ reg, ∀ c, storeGet store p.2 = some c → c.pongReceived = true →
      dictGet (checkPings reg store).1 p.1 = some p.2 ∧
      storeGet (checkPings reg store).2 p.2 = some c) := by
  refine ⟨rfl, rfl, ?_, ?_, ?_, ?_, ?_⟩
  · intro p hp c hget hact
    have h1 := foldl_sweep_get_once reg store p.2 c hvals
      (List.mem_map_of_mem Prod.snd hp) hget
    have hsw : sweepConn c =
        { c with recvActivity := false, pongReceived := false, pings := c.pings + 1 } := by
      simp [sweepConn, doPing, hact]
    rw [hsw] at h1
    exact h1
  · intro p hp c hget hact
    have h1 := foldl_sweep_get_once reg store p.2 c hvals
      (List.mem_map_of_mem Prod.snd hp) hget
    have hsw : sweepConn c = { c with recvActivity := false } := by
      simp [sweepConn, hact]
    rw [hsw] at h1
    exact h1
  · intro i c hget hpr
    have hred : receivePong reg store i =
        (reg, storeApply store i fun x =>
          { x with recvActivity := true, pongReceived := true }) := by
      unfold receivePong
      rw [hget]
      simp [hpr]
    rw [hred]
    exact ⟨rfl, storeGet_apply_self store i c _ (fun x => rfl) hget⟩
  · intro p hp c hget hpr
    have h := foldl_check_drop reg reg store p.2 c hget hpr hkeys hvals
      (List.mem_map_of_mem Prod.snd hp)
    have hn : c.name = p.1 := by
      obtain ⟨hcm, hcc⟩ := storeGet_mem store p.2 c hget
      exact hnames p hp c hcm hcc
    rw [hn] at h
    exact h
  · intro p hp c hget hpr
    have hr : dictGet reg p.1 = some p.2 := dictGet_of_mem_nodup reg p hkeys hp
    have hname : ∀ q ∈ reg, q.2 ≠ p.2 → ∀ cq ∈ store, cq.cid = q.2 →
        cq.name ≠ p.1 := by
      intro q hq hqne cq hcq hcid he
      have h1 : cq.name = q.1 := hnames q hq cq hcq hcid
      have h2 : q.1 = p.1 := by rw [← h1, he]
      have h3 : q = p := fst_inj_of_nodup reg hkeys q hq p hp h2
      exact hqne (by rw [h3])
    exact foldl_check_survive reg reg store p.1 p.2 c hget hpr hr hname

/-- C6 witness: two sockets, each registered under one name - one idle (so it
is pinged), one recently active. -/
theorem keepalive_spec_witness :
    ((([([110], 0), ([111], 1)] : List (List Nat × Nat)).map Prod.fst).Nodup ∧
      (([([110], 0), ([111], 1)] : List (List Nat × Nat)).map Prod.snd).Nodup ∧
      (∀ q ∈ ([([110], 0), ([111], 1)] : List (List Nat × Nat)),
        ∀ c2 ∈ ([⟨0, [110], false, false, false, 1, 0⟩,
            ⟨1, [111], true, true, false, 0, 0⟩] : List MDConn),
        c2.cid = q.2 → c2.name = q.1)) ∧
    (doPings [([110], 0), ([111], 1)]
        [⟨0, [110], false, false, false, 1, 0⟩,
         ⟨1, [111], true, true, false, 0, 0⟩]).2.1 = PING_TIMEOUT :=
  ⟨⟨by decide, by decide, by decide⟩,
    (keepalive_spec [([110], 0), ([111], 1)]
      [⟨0, [110], false, false, false, 1, 0⟩, ⟨1, [111], true, true, false, 0, 0⟩]
      (by decide) (by decide) (by decide)).1⟩

/-! ### C4 and C5: elapseTime claims -/

theorem mem_flatTriggers : ∀ (f : List DeadEvent) (x : DeadEvent),
    x ∈ flatTriggers f ↔ ∃ e ∈ f, x ∈ e.triggerScheds
  | [], x => by simp [flatTriggers]
  | e :: t, x => by
    simp only [flatTriggers, List.mem_append, mem_flatTriggers t x, List.mem_cons]
    constructor
    · rintro (h1 | ⟨e2, h2, h3⟩)
      · exact ⟨e, Or.inl rfl, h1⟩
      · exact ⟨e2, Or.inr h2, h3⟩
    · rintro ⟨e2, h2 | h2, h3⟩
      · subst h2
        exact Or.inl h3
      · exact Or.inr ⟨e2, h2, h3⟩

/-- A fired event comes from the start events, decremented. -/
theorem fired_from_start (q : DeadEventQueue) (delta : Rat)
    (hh : IsHeap q.events) (hisheap : q.isheap = true) :
    ∀ x ∈ (q.elapseTime delta).2,
      decide (x.delay ≤ eventEps) = true ∧ ∃ x0 ∈ q.events, x0.dec delta = x := by
  obtain ⟨hf, _, _, _, _, _, _⟩ := elapseTime_full_spec q delta hh hisheap
  intro x hx
  have h1 : x ∈ ((q.elapseTime delta).2 : Multiset DeadEvent) := Multiset.mem_coe.mpr hx
  rw [hf] at h1
  obtain ⟨hm, hp⟩ := List.mem_filter.mp (Multiset.mem_coe.mp h1)
  obtain ⟨x0, hx0, hx0e⟩ := List.mem_map.mp hm
  exact ⟨hp, x0, hx0, hx0e⟩

/-- C4: during one `elapseTime(delta)` on a heap-ordered queue, every live
event has its delay decremented by delta exactly once (each survives
decremented, or is logged fired at its decremented delay); an event fires
exactly when its decremented delay reaches 0.001, its callback running
once per firing; and - when callbacks schedule only fresh events - every
fired one-shot event is absent from the live collection on return. -/
theorem elapseTime_decrements_and_fires (q : DeadEventQueue) (delta : Rat)
    (hh : IsHeap q.events) (hisheap : q.isheap = true)
    (hfresh : ∀ e ∈ q.events, ∀ sp ∈ e.spawns, ∀ e2 ∈ q.events, sp.1 ≠ e2.eid) :
    ((q.elapseTime delta).2 : Multiset DeadEvent) =
      ↑((q.events.map (fun e => e.dec delta)).filter
        (fun e => decide (e.delay ≤ eventEps))) ∧
    ((q.elapseTime delta).1.events : Multiset DeadEvent) =
      ↑((q.events.map (fun e => e.dec delta)).filter
        (fun e => !decide (e.delay ≤ eventEps))) +
        ↑(flatTriggers (q.elapseTime delta).2) ∧
    (∀ e ∈ (q.elapseTime delta).2, e.periodic = false →
      e ∉ (q.elapseTime delta).1.events) := by
  obtain ⟨hf, he, hH, hih, hel, hsch, hcan⟩ := elapseTime_full_spec q delta hh hisheap
  refine ⟨hf, he, ?_⟩
  intro e hef hper hecon
  obtain ⟨hpe, e0, he0, he0eq⟩ := fired_from_start q delta hh hisheap e hef
  have h2 : e ∈ ((q.elapseTime delta).1.events : Multiset DeadEvent) :=
    Multiset.mem_coe.mpr hecon
  rw [he] at h2
  rcases Multiset.mem_add.mp h2 with h3 | h4
  · have h5 := (List.mem_filter.mp (Multiset.mem_coe.mp h3)).2
    rw [hpe] at h5
    simp at h5
  · obtain ⟨f, hfmem, hxf⟩ := (mem_flatTriggers _ _).mp (Multiset.mem_coe.mp h4)
    obtain ⟨_, f0, hf0, hf0eq⟩ := fired_from_start q delta hh hisheap f hfmem
    rw [← hf0eq] at hxf
    unfold DeadEvent.triggerScheds at hxf
    rcases List.mem_append.mp hxf with hsp | hre
    · obtain ⟨sp, hsp, hspe⟩ := List.mem_map.mp hsp
      have hsp0 : sp ∈ f0.spawns := hsp
      have heid : e.eid = sp.1 := by rw [← hspe] ; rfl
      have heid0 : e.eid = e0.eid := by rw [← he0eq] ; rfl
      exact hfresh f0 hf0 sp hsp0 e0 he0 (by rw [← heid, heid0])
    · split at hre
      · rename_i hcond
        have he1 := List.mem_singleton.mp hre
        have : e.periodic = true := by
          rw [he1]
          exact hcond.1
        rw [hper] at this
        exact Bool.false_ne_true this
      · simp at hre

/-- C4 witness: two one-shot events with delays 1 and 5, advanced by 2. -/
theorem elapseTime_decrements_and_fires_witness :
    (IsHeap ([⟨0, 1, 1, false, false, []⟩, ⟨1, 5, 5, false, false, []⟩] : List DeadEvent) ∧
      (⟨[⟨0, 1, 1, false, false, []⟩, ⟨1, 5, 5, false, false, []⟩], true, false, [], []⟩ :
        DeadEventQueue).isheap = true ∧
      (∀ e ∈ ([⟨0, 1, 1, false, false, []⟩, ⟨1, 5, 5, false, false, []⟩] : List DeadEvent),
        ∀ sp ∈ e.spawns,
          ∀ e2 ∈ ([⟨0, 1, 1, false, false, []⟩, ⟨1, 5, 5, false, false, []⟩] : List DeadEvent),
            sp.1 ≠ e2.eid)) ∧
    (∀ e ∈ ((⟨[⟨0, 1, 1, false, false, []⟩, ⟨1, 5, 5, false, false, []⟩], true, false, [], []⟩ :
        DeadEventQueue).elapseTime 2).2, e.periodic = false →
      e ∉ ((⟨[⟨0, 1, 1, false, false, []⟩, ⟨1, 5, 5, false, false, []⟩], true, false, [], []⟩ :
        DeadEventQueue).elapseTime 2).1.events) :=
  ⟨⟨by decide, rfl, by decide⟩,
    (elapseTime_decrements_and_fires
      (⟨[⟨0, 1, 1, false, false, []⟩, ⟨1, 5, 5, false, false, []⟩], true, false, [], []⟩ :
        DeadEventQueue) 2 (by decide) rfl (by decide)).2.2⟩

/-- C5: an event scheduled by a callback firing during `elapseTime` (a fresh
deferred call or a periodic self re-arm) is deferred through the staging
list: it is present undecremented in the heap when the call returns, it
was not itself fired within the call, the heap property is intact, and
`nextEventTicks` returns the true minimum over the final collection -
reflecting the newly scheduled events. -/
theorem elapseTime_reentrant_schedule (q : DeadEventQueue) (delta : Rat)
    (hh : IsHeap q.events) (hisheap : q.isheap = true)
    (hfresh : ∀ e ∈ q.events, ∀ sp ∈ e.spawns, ∀ e2 ∈ q.events, sp.1 ≠ e2.eid)
    (hodel : ∀ e ∈ q.events, eventEps < e.odelay) :
    (∀ x ∈ flatTriggers (q.elapseTime delta).2, x ∈ (q.elapseTime delta).1.events) ∧
    (∀ x ∈ flatTriggers (q.elapseTime delta).2, x ∉ (q.elapseTime delta).2) ∧
    IsHeap (q.elapseTime delta).1.events ∧
    (q.elapseTime delta).1.isheap = true ∧
    (∀ x ∈ (q.elapseTime delta).1.events, ∀ r,
      ((q.elapseTime delta).1.nextEventTicks).1 = some r → r ≤ x.delay) ∧
    ((q.elapseTime delta).1.events ≠ [] →
      ∃ r, ((q.elapseTime delta).1.nextEventTicks).1 = some r) := by
  obtain ⟨hf, he, hH, hih, hel, hsch, hcan⟩ := elapseTime_full_spec q delta hh hisheap
  refine ⟨?_, ?_, hH, hih, ?_, ?_⟩
  · intro x hx
    have h1 : x ∈ (↑(flatTriggers (q.elapseTime delta).2) : Multiset DeadEvent) :=
      Multiset.mem_coe.mpr hx
    have h2 : x ∈ ((q.elapseTime delta).1.events : Multiset DeadEvent) := by
      rw [he]
      exact Multiset.mem_add.mpr (Or.inr h1)
    exact Multiset.mem_coe.mp h2
  · intro x hx hcon
    obtain ⟨hpx, x0, hx0, hx0e⟩ := fired_from_start q delta hh hisheap x hcon
    obtain ⟨f, hfmem, hxf⟩ := (mem_flatTriggers _ _).mp hx
    obtain ⟨_, f0, hf0, hf0eq⟩ := fired_from_start q delta hh hisheap f hfmem
    rw [← hf0eq] at hxf
    unfold DeadEvent.triggerScheds at hxf
    rcases List.mem_append.mp hxf with hsp | hre
    · obtain ⟨sp, hsp, hspe⟩ := List.mem_map.mp hsp
      have heid : x.eid = sp.1 := by rw [← hspe] ; rfl
      have heid0 : x.eid = x0.eid := by rw [← hx0e] ; rfl
      exact hfresh f0 hf0 sp hsp x0 hx0 (by rw [← heid, heid0])
    · split at hre
      · have he1 := List.mem_singleton.mp hre
        have hxd : x.delay = f0.odelay := by rw [he1] ; rfl
        have hgt := hodel f0 hf0
        rw [← hxd] at hgt
        rw [decide_eq_true_eq] at hpx
        exact absurd hpx (not_le.mpr hgt)
      · simp at hre
  · intro x hx r hr
    cases hev : (q.elapseTime delta).1.events with
    | nil => rw [hev] at hx ; simp at hx
    | cons e0 tl =>
      have hnt : ((q.elapseTime delta).1.nextEventTicks).1 = some e0.delay := by
        unfold DeadEventQueue.nextEventTicks
        rw [hih]
        simp [hev]
      rw [hnt] at hr
      obtain rfl : r = e0.delay := (Option.some_inj.mp hr).symm
      rw [hev] at hx
      obtain ⟨i, hi, hie⟩ := exists_nthEv_of_mem (e0 :: tl) x hx
      have hroot := isHeap_root_le (e0 :: tl) (hev ▸ hH) i hi
      rw [hie, nthEv_cons_zero] at hroot
      exact hroot
  · intro hne
    cases hev : (q.elapseTime delta).1.events with
    | nil => exact absurd hev hne
    | cons e0 tl =>
      refine ⟨e0.delay, ?_⟩
      unfold DeadEventQueue.nextEventTicks
      rw [hih]
      simp [hev]

/-- C5 witness: a firing event whose callback schedules a fresh deferred call
of delay 5; after the call `nextEventTicks` reports 5. -/
theorem elapseTime_reentrant_schedule_witness :
    (IsHeap ([⟨0, 1, 1, false, false, [(7, 5)]⟩] : List DeadEvent) ∧
      (⟨[⟨0, 1, 1, false, false, [(7, 5)]⟩], true, false, [], []⟩ :
        DeadEventQueue).isheap = true ∧
      (∀ e ∈ ([⟨0, 1, 1, false, false, [(7, 5)]⟩] : List DeadEvent), ∀ sp ∈ e.spawns,
        ∀ e2 ∈ ([⟨0, 1, 1, false, false, [(7, 5)]⟩] : List DeadEvent), sp.1 ≠ e2.eid) ∧
      (∀ e ∈ ([⟨0, 1, 1, false, false, [(7, 5)]⟩] : List DeadEvent),
        eventEps < e.odelay)) ∧
    (∀ x ∈ flatTriggers (((⟨[⟨0, 1, 1, false, false, [(7, 5)]⟩], true, false, [], []⟩ :
          DeadEventQueue).elapseTime 1).2),
      x ∈ (((⟨[⟨0, 1, 1, false, false, [(7, 5)]⟩], true, false, [], []⟩ :
          DeadEventQueue).elapseTime 1).1.events)) :=
  ⟨⟨by decide, rfl, by decide, by
      intro e he
      simp only [List.mem_singleton] at he
      subst he
      norm_num [eventEps]⟩,
    (elapseTime_reentrant_schedule
      (⟨[⟨0, 1, 1, false, false, [(7, 5)]⟩], true, false, [], []⟩ : DeadEventQueue) 1
      (by decide) rfl (by decide) (by
        intro e he
        simp only [List.mem_singleton] at he
        subst he
        norm_num [eventEps])).1⟩

/-! ### C1: encode/decode round trip -/

theorem dispatchMessage_preserves (s : MDState) (ty : Nat) (msg : List Nat) :
    (dispatchMessage s ty msg).decoded = s.decoded ∧
    (dispatchMessage s ty msg).stream = s.stream := by
  unfold dispatchMessage
  split_ifs with h1 h2 h3 h4 h5
  · by_cases hx : (pyStrip msg).length = 0 <;>
      simp [handleSendMessageF, hx, onRegClientBase, handleProtocolViolationF]
  · exact ⟨rfl, rfl⟩
  · unfold handleProtocolViolationF
    exact ⟨rfl, rfl⟩
  · unfold sendPacked
    split
    · exact ⟨rfl, rfl⟩
    · exact ⟨rfl, rfl⟩
  · unfold handleProtocolViolationF
    exact ⟨rfl, rfl⟩
  · exact ⟨rfl, rfl⟩

theorem handleLoop_empty_stream (fuel : Nat) (s : MDState) (h : s.stream = []) :
    handleLoop fuel s = s := by
  cases fuel with
  | zero => rfl
  | succ n =>
    have hs : handleStream s = (s, false) := by
      unfold handleStream
      rw [if_pos (by simp [h])]
    unfold handleLoop
    rw [hs]
    cases hconn : s.connected <;> cases herr : s.err <;> simp [herr]

/-- One complete well-formed frame buffered on a fresh-header state decodes in
a single `handleStream` step and dispatches it. -/
theorem handleStream_single_frame (ty : Nat) (payload : List Nat) (s : MDState)
    (hty : ty ≤ 65535) (hlen : payload.length ≤ 196)
    (hcs : ∀ b ∈ payload, b ∈ md_charset)
    (hstream : s.stream = pack16 (payload.length + 4) ++ pack16 ty ++ payload)
    (hcur : s.curtype = none) :
    handleStream s =
      (dispatchMessage
        { s with curtype := none, curlen := none, stream := [],
                 decoded := s.decoded ++ [(ty, payload)] } ty payload, true) := by
  have hwlen : (pack16 (payload.length + 4) ++ pack16 ty ++ payload).length =
      payload.length + 4 := by
    simp [pack16]
  have htake2 : (pack16 (payload.length + 4) ++ pack16 ty ++ payload).take 2 =
      pack16 (payload.length + 4) := by
    simp [pack16]
  have hd2t2 : (((pack16 (payload.length + 4) ++ pack16 ty ++ payload).drop 2).take 2) =
      pack16 ty := by
    simp [pack16]
  have htakeall : (pack16 (payload.length + 4) ++ pack16 ty ++ payload).take
      (payload.length + 4) = pack16 (payload.length + 4) ++ pack16 ty ++ payload := by
    nth_rewrite 1 [← hwlen]
    exact List.take_length _
  have hdropall : (pack16 (payload.length + 4) ++ pack16 ty ++ payload).drop
      (payload.length + 4) = [] := by
    nth_rewrite 1 [← hwlen]
    exact List.drop_length _
  have hdrop4 : (pack16 (payload.length + 4) ++ pack16 ty ++ payload).drop 4 = payload := by
    simp [pack16]
  unfold handleStream
  rw [if_neg (by rw [hstream, hwlen] ; omega), hcur]
  simp only []
  rw [hstream, htake2, hd2t2, unpack16_pack16 (payload.length + 4) (by omega),
    unpack16_pack16 ty hty]
  rw [if_neg (by simp [mdValidateMessageHeader])]
  unfold handleStreamDispatch
  simp only []
  rw [if_pos (le_of_eq hwlen.symm)]
  rw [htakeall, hdrop4, hdropall]
  rw [if_neg (by simpa using (mdValidateMessage_eq_zero_iff payload).mpr hcs)]

/-- C1: for every payload of at most 196 accepted-charset bytes and every
16-bit type code, feeding the bytes `mdPackMessage` produces into the
incremental decoder yields exactly one decoded message carrying that type
and payload (and consumes the whole stream). -/
theorem mdRoundTrip (ty : Nat) (payload : List Nat) (hty : ty ≤ 65535)
    (hlen : payload.length ≤ 196) (hcs : ∀ b ∈ payload, b ∈ md_charset) :
    mdPackMessage ty payload =
      .ok (pack16 (payload.length + 4) ++ pack16 ty ++ payload) ∧
    (onRecv MDState.init (pack16 (payload.length + 4) ++ pack16 ty ++ payload)).decoded =
      [(ty, payload)] ∧
    (onRecv MDState.init (pack16 (payload.length + 4) ++ pack16 ty ++ payload)).stream =
      [] := by
  refine ⟨mdPackMessage_ok ty payload hlen hcs hty, ?_⟩
  obtain ⟨s1, hs1str, hs1cur, hs1conn, hs1dec, hrecv⟩ :
      ∃ s1 : MDState,
        s1.stream = pack16 (payload.length + 4) ++ pack16 ty ++ payload ∧
        s1.curtype = none ∧ s1.connected = true ∧ s1.decoded = [] ∧
        onRecv MDState.init (pack16 (payload.length + 4) ++ pack16 ty ++ payload) =
          handleLoop ((pack16 (payload.length + 4) ++ pack16 ty ++ payload).length + 1)
            s1 :=
    ⟨_, rfl, rfl, rfl, rfl, rfl⟩
  obtain ⟨s3, hs3dec, hs3str, hstep⟩ :
      ∃ s3 : MDState, s3.decoded = s1.decoded ++ [(ty, payload)] ∧ s3.stream = [] ∧
        handleStream s1 = (dispatchMessage s3 ty payload, true) :=
    ⟨_, rfl, rfl, handleStream_single_frame ty payload s1 hty hlen hcs hs1str hs1cur⟩
  have hpres := dispatchMessage_preserves s3 ty payload
  have hdec : (dispatchMessage s3 ty payload).decoded = [(ty, payload)] := by
    rw [hpres.1, hs3dec, hs1dec, List.nil_append]
  have hstr : (dispatchMessage s3 ty payload).stream = [] := by
    rw [hpres.2, hs3str]
  rw [hrecv]
  unfold handleLoop
  rw [hs1conn]
  cases herr : (dispatchMessage s3 ty payload).err with
  | some e => simp [hstep, herr, hdec, hstr]
  | none => simp [hstep, herr, handleLoop_empty_stream _ _ hstr, hdec, hstr]

/-- C1 witness: the PING frame with payload "hai" round-trips. -/
theorem mdRoundTrip_witness :
    (MD_PING ≤ 65535 ∧ ([104, 97, 105] : List Nat).length ≤ 196 ∧
      (∀ b ∈ ([104, 97, 105] : List Nat), b ∈ md_charset)) ∧
    (onRecv MDState.init (pack16 (([104, 97, 105] : List Nat).length + 4) ++
        pack16 MD_PING ++ [104, 97, 105])).decoded = [(MD_PING, [104, 97, 105])] :=
  ⟨⟨by decide, by decide, by decide⟩,
    (mdRoundTrip MD_PING [104, 97, 105] (by decide) (by decide) (by decide)).2.1⟩
